import Mathlib

/-!
# textbook-rsa: a shallow embedding of `rsa_lib.c`

The C functions of `src/rsa_lib.c` are embedded as Lean functions.  Values of type
`mpz_t` are integers; those the program only ever holds non-negative (random draws,
primes, encoded messages) are `Nat`, those parsed from files are `Int`.  The GMP
routines the program calls are modelled by their documented results, written as
executable functions (square-and-multiply for `mpz_powm`, the extended Euclidean
algorithm for `mpz_invert`, upward search for `mpz_nextprime`).

A C `char` is its 8-bit pattern.  A C string is the list of bytes stored from the
pointer onwards; it ends at the first zero byte, and the end of the list stands for the
terminator.  A destination array is the list of its current bytes, and an access
outside of it has no result (`none`), as has a GMP division by zero.
-/

namespace TextbookRSA

/-! ## Constants and basic types -/

/-- The macro `KEY_SIZE` of `rsa_lib.h`. -/
def KEY_SIZE : Nat := 1024

/-- A C `char`, identified with its 8-bit pattern. -/
abbrev Char8 := Fin 256

/-- The bytes of a C string: everything before the first zero byte. -/
def strOf (mem : List Char8) : List Char8 := mem.takeWhile (fun c => c != 0)

/-- Arithmetic on `size_t` is modulo `2 ^ 64`. -/
def SIZE_MOD : Nat := 18446744073709551616

/-- What the program does not control: the pseudo-random generator (`urandom seed i` is
the `i`-th number drawn from the default generator after seeding it with `seed`), the
clock (`time k` is what the `k`-th call of `time(NULL)` returns), the value found in the
result operand after an `mpz_invert` that found no inverse, and the bytes found in
uninitialised local arrays. -/
structure Env where
  urandom : Nat → Nat → Nat
  time : Nat → Nat
  invert_undef : Int
  garbage : Nat → Char8

/-- An uninitialised local array of `size` bytes. -/
def uninit (env : Env) (size : Nat) : List Char8 := (List.range size).map env.garbage

/-! ## GMP: sizes and primes -/

/-- Number of binary digits of `n` (`0` for `n = 0`); `fuel ≥ n` bounds the halvings. -/
def bitsLoop : Nat → Nat → Nat
  | 0, _ => 0
  | fuel + 1, n => if n = 0 then 0 else bitsLoop fuel (n / 2) + 1

/-- GMP `mpz_sizeinbase(op, 2)` on a non-negative operand: the number of bits of `op`,
and `1` for `op = 0`. -/
def mpz_sizeinbase (op : Nat) : Nat :=
  if op = 0 then 1 else bitsLoop op op

/-- Upward search for a prime from candidate `c`, over at most `fuel` candidates. -/
def nextprimeLoop : Nat → Nat → Nat
  | 0, c => c
  | fuel + 1, c => if Nat.Prime c then c else nextprimeLoop fuel (c + 1)

/-- GMP `mpz_nextprime(rop, op)` on a non-negative operand: the next prime greater than
`op`.  One of `op + 1, …, 2 * op + 2` is prime, so `op + 2` candidates are enough. -/
def mpz_nextprime (op : Nat) : Nat := nextprimeLoop (op + 2) (op + 1)

/-! ## GMP: modular exponentiation and inverse -/

/-- Right-to-left square-and-multiply: returns `acc * b ^ e % m` for reduced `b`, `acc`. -/
def powmLoop : Nat → Nat → Nat → Nat → Nat → Nat
  | 0, _, _, _, acc => acc
  | fuel + 1, b, e, m, acc =>
    if e = 0 then acc
    else powmLoop fuel (b * b % m) (e / 2) m (if e % 2 = 1 then acc * b % m else acc)

/-- The natural-number core of `mpz_powm`: `b ^ e % m`. -/
def powmNat (b e m : Nat) : Nat := powmLoop e (b % m) e m (1 % m)

/-- Extended Euclid on remainders `r0, r1` with cofactors `t0, t1`; returns the last
non-zero remainder and its cofactor. -/
def invertLoop : Nat → Int → Int → Int → Int → Int × Int
  | 0, r0, _, t0, _ => (r0, t0)
  | fuel + 1, r0, r1, t0, t1 =>
    if r1 = 0 then (r0, t0)
    else invertLoop fuel r1 (r0 % r1) t1 (t0 - (r0 / r1) * t1)

/-- GMP `mpz_invert(rop, op1, op2)`: `some rop` with `0 ≤ rop < |op2|` when the inverse of
`op1` modulo `op2` exists (the call returns non-zero), `none` when it does not (the call
returns zero and `rop` is undefined). -/
def mpz_invert (op1 op2 : Int) : Option Int :=
  if op2 = 0 then none
  else
    let r := invertLoop op2.natAbs |op2| (op1 % |op2|) 0 1
    if r.1 = 1 then some (r.2 % |op2|) else none

/-- GMP `mpz_powm(rop, base, exp, mod)`: `base ^ exp` modulo `mod`, in `[0, |mod|)`.  A
negative `exp` uses the inverse of `base`; `none` is the division-by-zero abort raised for
`mod = 0` or for a negative `exp` without an inverse. -/
def mpz_powm (base exp mod : Int) : Option Int :=
  if mod = 0 then none
  else if 0 ≤ exp then
    some (powmNat (base % |mod|).toNat exp.toNat mod.natAbs)
  else
    match mpz_invert base mod with
    | none => none
    | some inv => some (powmNat inv.toNat (-exp).toNat mod.natAbs)

/-! ## GMP: decimal conversion -/

/-- The ASCII digit of `d % 10`. -/
def digitChar (d : Nat) : Char8 := Fin.ofNat (48 + d % 10)

/-- Decimal digits of `n`, most significant first, in front of `acc`. -/
def decLoop : Nat → Nat → List Char8 → List Char8
  | 0, _, acc => acc
  | fuel + 1, n, acc =>
    if n < 10 then digitChar n :: acc else decLoop fuel (n / 10) (digitChar n :: acc)

/-- GMP `mpz_get_str(NULL, 10, op)`: the decimal digits of `op`, after `-` when negative. -/
def mpz_get_str (op : Int) : List Char8 :=
  if op < 0 then 45 :: decLoop (op.natAbs + 1) op.natAbs []
  else decLoop (op.natAbs + 1) op.natAbs []

/-- C `isspace` in the C locale. -/
def isspace (c : Char8) : Bool := c == 32 || (9 ≤ c.val && c.val ≤ 13)

/-- Whether `c` is one of `'0'` … `'9'`. -/
def isdigit (c : Char8) : Bool := 48 ≤ c.val && c.val ≤ 57

/-- The value of a digit string in which white space is ignored; `none` at any other
character. -/
def digitsValue : List Char8 → Nat → Option Nat
  | [], acc => some acc
  | c :: rest, acc =>
    if isspace c then digitsValue rest acc
    else if isdigit c then digitsValue rest (acc * 10 + (c.val - 48))
    else none

/-- GMP `mpz_set_str(rop, str, 10)`: leading white space, an optional `-`, then a digit,
then digits and white space up to the terminator.  `some v` is the value stored; `none`
is the failure return, which leaves `rop` as it was. -/
def mpz_set_str (str : List Char8) : Option Int :=
  let s := (strOf str).dropWhile isspace
  let neg := s.head? == some 45
  let body := if neg then s.tail else s
  match body with
  | [] => none
  | c :: _ =>
    if isdigit c then
      match digitsValue body 0 with
      | none => none
      | some v => some (if neg then -(v : Int) else (v : Int))
    else none

/-! ## Files and output -/

/-- The file system: `files path` is the content of the file that `fopen` opens for reading at
`path` (`none` when it cannot be opened), `writable path` whether `fopen` opens `path` for
writing. -/
structure World where
  files : List Char8 → Option (List Char8)
  writable : List Char8 → Bool

/-- The file system after opening `path` for writing, writing `content` and `fclose`. -/
def World.write (w : World) (path content : List Char8) : World :=
  { w with files := fun p => if p = path then some content else w.files p }

/-- The lines the program prints, on `stderr` (the errors) and `stdout`. -/
inductive Out where
  | errWritePublicKey (path : List Char8)
  | errWritePrivateKey (path : List Char8)
  | keysGenerated
  | errMessageTooLarge (bits : Nat)
  | errOpenPublicKey (path : List Char8)
  | errWriteCiphertext
  | encrypted
  | errOpenCiphertext (path : List Char8)
  | errOpenPrivateKey (path : List Char8)
  | decrypted (message : List Char8)
  deriving DecidableEq

/-- What a call leaves behind: the file system and the lines printed. -/
structure Run where
  world : World
  out : List Out

/-- At most `k` bytes of `stream`, stopping after a newline. -/
def takeLine : Nat → List Char8 → List Char8
  | 0, _ => []
  | _, [] => []
  | k + 1, c :: rest => if c = 10 then [c] else c :: takeLine k rest

/-- C `fgets(buffer, size, stream)`: `none` at end of file (the array is left as it was),
else the array holding the line and its terminator, and the rest of the stream. -/
def fgets (buffer : List Char8) (size : Nat) (stream : List Char8) :
    Option (List Char8 × List Char8) :=
  match stream with
  | [] => none
  | _ :: _ =>
    let line := takeLine (size - 1) stream
    some (line ++ 0 :: buffer.drop (line.length + 1), stream.drop line.length)

/-- One `if (fgets(buffer, sizeof(buffer), file) != NULL) mpz_set_str(x, buffer + 2, 10);`
of `encrypt_message` and `decrypt_message`: the new `x`, array and stream. -/
def readField (buffer stream : List Char8) (x : Int) : Int × List Char8 × List Char8 :=
  match fgets buffer (KEY_SIZE / 2) stream with
  | none => (x, buffer, stream)
  | some (buffer1, stream1) =>
    match mpz_set_str (buffer1.drop 2) with
    | none => (x, buffer1, stream1)
    | some v => (v, buffer1, stream1)

/-- The block that reads two fields, `n` and the exponent, from a key file into variables
that `mpz_inits` set to zero. -/
def readKey (buffer stream : List Char8) : Int × Int :=
  let rn := readField buffer stream 0
  let re := readField rn.2.1 rn.2.2 0
  (rn.1, re.1)

/-! ## Helper functions of `rsa_lib.c` -/

/-- The `do … while` loop of `generate_random_prime`; `i` counts the draws. -/
def primeLoop (draw : Nat → Nat) (bit_size : Nat) : Nat → Nat → Option Nat
  | 0, _ => none
  | fuel + 1, i =>
    let prime := mpz_nextprime (draw i % 2 ^ bit_size)
    if mpz_sizeinbase prime < bit_size then primeLoop draw bit_size fuel (i + 1)
    else some prime

/-- `generate_random_prime(prime, bit_size)`, as the `k`-th reader of the clock, for a
non-negative `bit_size`; `none` when the loop has not ended after `fuel` draws. -/
def generate_random_prime (env : Env) (k : Nat) (bit_size : Nat) (fuel : Nat) : Option Nat :=
  primeLoop (env.urandom (env.time k)) bit_size fuel 0

/-- The loop of `encodeBase256` with `number` as accumulated so far. -/
def encodeLoop : Nat → List Char8 → Nat
  | number, [] => number
  | number, c :: rest => if c = 0 then number else encodeLoop (number * 256 + c.val) rest

/-- `encodeBase256(number, string)`. -/
def encodeBase256 (string : List Char8) : Nat := encodeLoop 0 string

/-- The assignment `string[i] = c`. -/
def writeAt (string : List Char8) (i : Nat) (c : Char8) : Option (List Char8) :=
  if i < string.length then some (string.set i c) else none

/-- The `while (mpz_sgn(temp) > 0)` loop of `decodeBase256`: the array and `i` after it.
Every round divides `temp` by 256, so the `temp` rounds it is given are never used up. -/
def digitLoop : Nat → Nat → List Char8 → Nat → Option (List Char8 × Nat)
  | 0, temp, string, i => if 0 < temp then none else some (string, i)
  | fuel + 1, temp, string, i =>
    if 0 < temp then
      match writeAt string i (Fin.ofNat (temp % 256)) with
      | none => none
      | some string1 => digitLoop fuel (temp / 256) string1 (i + 1)
    else some (string, i)

/-- The in-place reversal loop of `decodeBase256`.  Every round moves `start` and `end_`
towards each other, so the `end_` rounds it is given are never used up. -/
def reverseLoop : Nat → List Char8 → Nat → Nat → Option (List Char8)
  | 0, string, start, end_ => if start < end_ then none else some string
  | fuel + 1, string, start, end_ =>
    if start < end_ then
      match string.get? start, string.get? end_ with
      | some tempChar, some c => reverseLoop fuel ((string.set start c).set end_ tempChar)
          (start + 1) (end_ - 1)
      | _, _ => none
    else some string

/-- `decodeBase256(string, number)`: the destination array after the call. -/
def decodeBase256 (string : List Char8) (number : Int) : Option (List Char8) :=
  match digitLoop number.toNat number.toNat string 0 with
  | none => none
  | some (string1, i) =>
    match writeAt string1 i 0 with
    | none => none
    | some string2 =>
      reverseLoop ((i + SIZE_MOD - 1) % SIZE_MOD) string2 0 ((i + SIZE_MOD - 1) % SIZE_MOD)

/-! ## Crypto functions of `rsa_lib.c` -/

/-- The struct `RSAKey` of `rsa_lib.h`. -/
structure RSAKey where
  n : Int
  e : Int
  d : Int

/-- A run of `generate_rsa_keys`: the primes it drew, the key, and what it left behind. -/
structure KeyGen where
  p : Nat
  q : Nat
  key : RSAKey
  world : World
  out : List Out

/-- The `while (mpz_cmp(p, q) == 0)` loop of `generate_rsa_keys`; `k` counts the calls of
`generate_random_prime` made so far. -/
def redrawLoop (env : Env) (p : Nat) (inner : Nat) : Nat → Nat → Nat → Option Nat
  | 0, _, q => if p = q then none else some q
  | fuel + 1, k, q =>
    if p = q then
      match generate_random_prime env k (KEY_SIZE / 2) inner with
      | none => none
      | some q1 => redrawLoop env p inner fuel (k + 1) q1
    else some q

/-- The array `public_key_path` after `snprintf`: `keys_path`, then `/public.key`, cut to
1023 bytes. -/
def public_key_path (keys_path : List Char8) : List Char8 :=
  (strOf keys_path ++ [47, 112, 117, 98, 108, 105, 99, 46, 107, 101, 121]).take 1023

/-- The array `private_key_path` after `snprintf`: `keys_path`, then `/private.key`, cut to
1023 bytes. -/
def private_key_path (keys_path : List Char8) : List Char8 :=
  (strOf keys_path ++ [47, 112, 114, 105, 118, 97, 116, 101, 46, 107, 101, 121]).take 1023

/-- What the `fprintf` of a key file writes: `n:`, the modulus, a newline, the letter of
the exponent (`101` for `e`, `100` for `d`), `:` and the exponent. -/
def keyFile (letter : Char8) (n_str x_str : List Char8) : List Char8 :=
  [110, 58] ++ n_str ++ [10, letter, 58] ++ x_str

/-- The part of `generate_rsa_keys` after the primes are drawn (from `mpz_mul(key.n, p, q)`
on). -/
def writeKeys (env : Env) (w : World) (keys_path : List Char8) (p q : Nat) : KeyGen :=
  let n : Int := (p : Int) * (q : Int)
  let phi : Int := ((p : Int) - 1) * ((q : Int) - 1)
  let e : Int := 65537
  let d : Int := match mpz_invert e phi with
    | some d => d
    | none => env.invert_undef
  let n_str := mpz_get_str n
  let e_str := mpz_get_str e
  let d_str := mpz_get_str d
  let pub : Run :=
    if w.writable (public_key_path keys_path) then
      ⟨w.write (public_key_path keys_path) (keyFile 101 n_str e_str), []⟩
    else ⟨w, [Out.errWritePublicKey (public_key_path keys_path)]⟩
  let priv : Run :=
    if pub.world.writable (private_key_path keys_path) then
      ⟨pub.world.write (private_key_path keys_path) (keyFile 100 n_str d_str), []⟩
    else ⟨pub.world, [Out.errWritePrivateKey (private_key_path keys_path)]⟩
  { p := p, q := q, key := ⟨n, e, d⟩, world := priv.world,
    out := pub.out ++ priv.out ++ [Out.keysGenerated] }

/-- `generate_rsa_keys(keys_path)`; `none` when one of its loops has not ended after
`fuel` rounds. -/
def generate_rsa_keys (env : Env) (fuel : Nat) (w : World) (keys_path : List Char8) :
    Option KeyGen :=
  match generate_random_prime env 0 (KEY_SIZE / 2) fuel with
  | none => none
  | some p =>
    match generate_random_prime env 1 (KEY_SIZE / 2) fuel with
    | none => none
    | some q0 =>
      match redrawLoop env p fuel fuel 2 q0 with
      | none => none
      | some q => some (writeKeys env w keys_path p q)

/-- The file name `ciphertext_file`. -/
def ciphertext_file : List Char8 :=
  [99, 105, 112, 104, 101, 114, 116, 101, 120, 116, 95, 102, 105, 108, 101]

/-- `encrypt_message(public_key_path, message_str)`, with the parameters in the order of
the definition in `rsa_lib.c`; `none` is an abort inside GMP. -/
def encrypt_message (env : Env) (w : World) (public_key_path message_str : List Char8) :
    Option Run :=
  let buffer := uninit env (KEY_SIZE / 2)
  let message := encodeBase256 message_str
  if mpz_sizeinbase message > KEY_SIZE then
    some ⟨w, [Out.errMessageTooLarge (mpz_sizeinbase message)]⟩
  else
    match w.files (strOf public_key_path) with
    | none => some ⟨w, [Out.errOpenPublicKey (strOf public_key_path)]⟩
    | some pub_file =>
      let key := readKey buffer pub_file
      match mpz_powm (message : Int) key.2 key.1 with
      | none => none
      | some ciphertext =>
        if w.writable ciphertext_file then
          some ⟨w.write ciphertext_file ([99, 58] ++ mpz_get_str ciphertext), [Out.encrypted]⟩
        else some ⟨w, [Out.errWriteCiphertext]⟩

/-- `decrypt_message(private_key_path, ciphertext_file_path)`, with the parameters in the
order of the definition in `rsa_lib.c`; `none` is an abort inside GMP or an access outside
`message_str`. -/
def decrypt_message (env : Env) (w : World)
    (private_key_path ciphertext_file_path : List Char8) : Option Run :=
  let buffer := uninit env (KEY_SIZE / 2)
  match w.files (strOf ciphertext_file_path) with
  | none => some ⟨w, [Out.errOpenCiphertext (strOf ciphertext_file_path)]⟩
  | some ciphertext_stream =>
    let rc := readField buffer ciphertext_stream 0
    match w.files (strOf private_key_path) with
    | none => some ⟨w, [Out.errOpenPrivateKey (strOf private_key_path)]⟩
    | some priv_file =>
      let key := readKey rc.2.1 priv_file
      match mpz_powm rc.1 key.2 key.1 with
      | none => none
      | some message =>
        let message_str := (List.range 1024).map (fun i => env.garbage (KEY_SIZE / 2 + i))
        match decodeBase256 message_str message with
        | none => none
        | some string => some ⟨w, [Out.decrypted (strOf string)]⟩

/-! ## Concrete inputs -/

/-- The 512-bit prime `2 ^ 475 * 3 ^ 23 + 1`. -/
def primeP : Nat :=
  9184104125791451999903139665040808367020038532795888668879050260639780954189410396787891459833931786749322292966662354594634728082824495114883515847540737

/-- The 512-bit prime `2 ^ 399 * 3 ^ 71 + 1`. -/
def primeQ : Nat :=
  9695659496402058345675109753360179404032028613270359117817069167974113257013740920328993609480389467494990201488126732816853607851393176121811846442254337

/-- The 512-bit prime `65537 * 2 ^ 380 * 3 ^ 73 + 1`. -/
def primeR : Nat :=
  10907783370478277740868734381015195271336409631826583346442023007495260514686938950081656050988476869165368186024372587580801418456670362952149671216152577

/-- An environment whose clock ticks between calls and whose generator first draws `a`
when seeded with `0` and `b` otherwise. -/
def envDraws (a b : Nat) : Env where
  urandom := fun seed _ => if seed = 0 then a else b
  time := fun k => k
  invert_undef := 0
  garbage := fun _ => 0

/-- A file system without files in which every file can be created. -/
def emptyWorld : World where
  files := fun _ => none
  writable := fun _ => true

/-- A file system whose file `k` holds the lines `n:3233` and `e:17`, whose file `l` holds
`n:3233` and `d:2753`, and in which every file can be created. -/
def keyWorld : World where
  files := fun p =>
    if p = [107] then some [110, 58, 51, 50, 51, 51, 10, 101, 58, 49, 55]
    else if p = [108] then some [110, 58, 51, 50, 51, 51, 10, 100, 58, 50, 55, 53, 51]
    else none
  writable := fun _ => true

/-- An environment whose clock shows the same second to the first two readers and the
next second from the third reader on; seeded with second `0` the generator draws
`primeP - 1`, otherwise `primeQ - 1`. -/
def envSameSecond : Env where
  urandom := fun seed _ => if seed = 0 then primeP - 1 else primeQ - 1
  time := fun k => k / 2
  invert_undef := 0
  garbage := fun _ => 0

/-- An environment whose generator draws `3` first and `131` from then on, whatever the
seed. -/
def envShortThenPrime : Env where
  urandom := fun _ i => if i = 0 then 3 else 131
  time := fun k => k
  invert_undef := 0
  garbage := fun _ => 0

/-! ## GMP: what the models compute -/

theorem powmLoop_eq (fuel : Nat) : ∀ (b e m acc : Nat), e ≤ fuel → acc % m = acc →
    powmLoop fuel b e m acc = acc * b ^ e % m := by
  induction fuel with
  | zero =>
    intro b e m acc he hacc
    have : e = 0 := by omega
    subst this
    simp [powmLoop, hacc]
  | succ fuel ih =>
    intro b e m acc he hacc
    unfold powmLoop
    by_cases h0 : e = 0
    · subst h0; simp [hacc]
    · rw [if_neg h0]
      have hle : e / 2 ≤ fuel := by omega
      have hsq : (b * b % m) ^ (e / 2) ≡ b ^ (2 * (e / 2)) [MOD m] := by
        have h1 : b * b % m ≡ b ^ 2 [MOD m] := by
          rw [pow_two]; exact Nat.mod_modEq _ _
        have := h1.pow (e / 2)
        rwa [← pow_mul] at this
      by_cases hodd : e % 2 = 1
      · rw [if_pos hodd, ih _ _ _ _ hle (Nat.mod_mod _ _)]
        have he2 : e = 2 * (e / 2) + 1 := by omega
        have h2 : acc * b % m * (b * b % m) ^ (e / 2) ≡ acc * b * b ^ (2 * (e / 2)) [MOD m] :=
          (Nat.mod_modEq _ _).mul hsq
        have h3 : acc * b * b ^ (2 * (e / 2)) = acc * b ^ e := by
          conv_rhs => rw [he2, pow_succ]
          ring
        rw [← h3]
        exact h2
      · rw [if_neg hodd, ih _ _ _ _ hle hacc]
        have he2 : e = 2 * (e / 2) := by omega
        have h2 : acc * (b * b % m) ^ (e / 2) ≡ acc * b ^ (2 * (e / 2)) [MOD m] :=
          (Nat.ModEq.refl acc).mul hsq
        rw [← he2] at h2
        exact h2

theorem powmNat_eq (b e m : Nat) : powmNat b e m = b ^ e % m := by
  unfold powmNat
  rw [powmLoop_eq e _ _ _ _ le_rfl (Nat.mod_mod _ _)]
  have h : 1 % m * (b % m) ^ e ≡ 1 * b ^ e [MOD m] :=
    (Nat.mod_modEq _ _).mul ((Nat.mod_modEq _ _).pow e)
  rw [one_mul] at h
  exact h

theorem bitsLoop_eq_size (fuel : Nat) : ∀ n : Nat, n ≤ fuel → bitsLoop fuel n = Nat.size n := by
  induction fuel with
  | zero =>
    intro n hn
    have : n = 0 := by omega
    subst this
    simp [bitsLoop]
  | succ fuel ih =>
    intro n hn
    unfold bitsLoop
    by_cases h0 : n = 0
    · subst h0; simp
    · rw [if_neg h0, ih _ (by omega)]
      have h2 : n = 2 * (n / 2) + n % 2 := by omega
      have : Nat.size n = Nat.size (n / 2) + 1 := by
        conv_lhs => rw [← Nat.bit_decomp n]
        rw [Nat.size_bit]
        · simp [Nat.div2_val]
        · rw [Nat.bit_decomp]; exact h0
      rw [this]

theorem invertLoop_spec (a m : Int) (fuel : Nat) : ∀ (r0 r1 : Nat) (t0 t1 : Int), r1 < fuel →
    (r0 : Int) ≡ t0 * a [ZMOD m] → (r1 : Int) ≡ t1 * a [ZMOD m] →
    (invertLoop fuel r0 r1 t0 t1).1 = (Nat.gcd r0 r1 : Int) ∧
      (invertLoop fuel r0 r1 t0 t1).1 ≡ (invertLoop fuel r0 r1 t0 t1).2 * a [ZMOD m] := by
  induction fuel with
  | zero => intro r0 r1 t0 t1 h; omega
  | succ fuel ih =>
    intro r0 r1 t0 t1 hlt h0 h1
    unfold invertLoop
    by_cases hz : r1 = 0
    · subst hz
      simp only [Nat.cast_zero, if_true, Nat.gcd_zero_right]
      exact ⟨trivial, h0⟩
    · rw [if_neg (by exact_mod_cast hz)]
      have hpos : 0 < r1 := Nat.pos_of_ne_zero hz
      have hmod : ((r0 : Int) % (r1 : Int)) = ((r0 % r1 : Nat) : Int) := by
        exact_mod_cast rfl
      rw [hmod]
      have hlt2 : r0 % r1 < fuel := lt_of_lt_of_le (Nat.mod_lt _ hpos) (by omega)
      have hc : ((r0 % r1 : Nat) : Int) ≡ (t0 - (r0 : Int) / (r1 : Int) * t1) * a [ZMOD m] := by
        have e1 : ((r0 % r1 : Nat) : Int) = (r0 : Int) - (r0 : Int) / (r1 : Int) * (r1 : Int) := by
          rw [← hmod]
          have := Int.emod_add_ediv (r0 : Int) (r1 : Int)
          linarith
        rw [e1, sub_mul, mul_assoc]
        exact h0.sub ((Int.ModEq.refl _).mul h1)
      have := ih r1 (r0 % r1) t1 (t0 - (r0 : Int) / (r1 : Int) * t1) hlt2 h1 hc
      refine ⟨?_, this.2⟩
      rw [this.1]
      congr 1
      rw [Nat.gcd_comm r1, ← Nat.gcd_rec, Nat.gcd_comm]

theorem mpz_invert_some {a m d : Int} (h : mpz_invert a m = some d) :
    0 ≤ d ∧ d < |m| ∧ a * d ≡ 1 [ZMOD m] := by
  unfold mpz_invert at h
  by_cases hm : m = 0
  · simp [hm] at h
  · rw [if_neg hm] at h
    simp only at h
    split at h
    · rename_i hg
      have hd : d = (invertLoop m.natAbs |m| (a % |m|) 0 1).2 % |m| := by
        injection h with h; exact h.symm
      have habs : (0 : Int) < |m| := abs_pos.mpr hm
      have hr1 : 0 ≤ a % |m| := Int.emod_nonneg _ (ne_of_gt habs)
      have hr1lt : a % |m| < |m| := Int.emod_lt_of_pos _ habs
      have e0 : |m| = ((m.natAbs : Nat) : Int) := Int.abs_eq_natAbs m
      have e1 : a % |m| = (((a % |m|).toNat : Nat) : Int) := (Int.toNat_of_nonneg hr1).symm
      have hfuel : (a % |m|).toNat < m.natAbs := by
        have : (((a % |m|).toNat : Nat) : Int) < ((m.natAbs : Nat) : Int) := by
          rw [← e1, ← e0]; exact hr1lt
        exact_mod_cast this
      have c0 : ((m.natAbs : Nat) : Int) ≡ 0 * a [ZMOD m] := by
        rw [zero_mul, ← e0]
        exact (Int.modEq_zero_iff_dvd).mpr ((dvd_abs m m).mpr dvd_rfl)
      have c1 : (((a % |m|).toNat : Nat) : Int) ≡ 1 * a [ZMOD m] := by
        rw [one_mul, ← e1]
        have : a % |m| = a % m := Int.emod_abs a m
        rw [this]
        exact Int.mod_modEq a m
      have sp := invertLoop_spec a m m.natAbs m.natAbs (a % |m|).toNat 0 1 hfuel c0 c1
      rw [← e0, ← e1] at sp
      refine ⟨?_, ?_, ?_⟩
      · rw [hd]; exact Int.emod_nonneg _ (ne_of_gt habs)
      · rw [hd]; exact Int.emod_lt_of_pos _ habs
      · have h2 := sp.2
        rw [hg] at h2
        have h3 : (invertLoop m.natAbs |m| (a % |m|) 0 1).2 % |m| ≡
            (invertLoop m.natAbs |m| (a % |m|) 0 1).2 [ZMOD m] := by
          rw [Int.emod_abs]; exact Int.mod_modEq _ m
        rw [hd, mul_comm]
        exact (h3.mul (Int.ModEq.refl a)).trans h2.symm
    · exact absurd h (by simp)

theorem mpz_invert_of_gcd {a m : Int} (hm : m ≠ 0) (hg : Int.gcd a m = 1) :
    ∃ d, mpz_invert a m = some d := by
  have habs : (0 : Int) < |m| := abs_pos.mpr hm
  have hr1 : 0 ≤ a % |m| := Int.emod_nonneg _ (ne_of_gt habs)
  have hr1lt : a % |m| < |m| := Int.emod_lt_of_pos _ habs
  have e0 : |m| = ((m.natAbs : Nat) : Int) := Int.abs_eq_natAbs m
  have e1 : a % |m| = (((a % |m|).toNat : Nat) : Int) := (Int.toNat_of_nonneg hr1).symm
  have hfuel : (a % |m|).toNat < m.natAbs := by
    have : (((a % |m|).toNat : Nat) : Int) < ((m.natAbs : Nat) : Int) := by
      rw [← e1, ← e0]; exact hr1lt
    exact_mod_cast this
  have c0 : ((m.natAbs : Nat) : Int) ≡ 0 * a [ZMOD m] := by
    rw [zero_mul, ← e0]
    exact (Int.modEq_zero_iff_dvd).mpr ((dvd_abs m m).mpr dvd_rfl)
  have c1 : (((a % |m|).toNat : Nat) : Int) ≡ 1 * a [ZMOD m] := by
    rw [one_mul, ← e1]
    have : a % |m| = a % m := Int.emod_abs a m
    rw [this]
    exact Int.mod_modEq a m
  have sp := invertLoop_spec a m m.natAbs m.natAbs (a % |m|).toNat 0 1 hfuel c0 c1
  rw [← e0, ← e1] at sp
  have hone : (invertLoop m.natAbs |m| (a % |m|) 0 1).1 = 1 := by
    rw [sp.1]
    have hdm : ((Nat.gcd m.natAbs (a % |m|).toNat : Nat) : Int) ∣ m := by
      have : ((Nat.gcd m.natAbs (a % |m|).toNat : Nat) : Int) ∣ ((m.natAbs : Nat) : Int) :=
        Int.natCast_dvd_natCast.mpr (Nat.gcd_dvd_left _ _)
      rw [← e0] at this
      exact (dvd_abs _ _).mp this
    have hda : ((Nat.gcd m.natAbs (a % |m|).toNat : Nat) : Int) ∣ a := by
      have h1 : ((Nat.gcd m.natAbs (a % |m|).toNat : Nat) : Int) ∣ a % |m| := by
        have : ((Nat.gcd m.natAbs (a % |m|).toNat : Nat) : Int) ∣
            (((a % |m|).toNat : Nat) : Int) :=
          Int.natCast_dvd_natCast.mpr (Nat.gcd_dvd_right _ _)
        rwa [← e1] at this
      have h2 : a = a % |m| + |m| * (a / |m|) := (Int.emod_add_ediv a |m|).symm
      have h3 := dvd_add h1 (Dvd.dvd.mul_right ((dvd_abs _ _).mpr hdm) (a / |m|))
      rwa [← h2] at h3
    have hdvd := Int.dvd_gcd hda hdm
    rw [hg] at hdvd
    have : Nat.gcd m.natAbs (a % |m|).toNat ∣ 1 := by exact_mod_cast hdvd
    have := Nat.dvd_one.mp this
    exact_mod_cast this
  refine ⟨(invertLoop m.natAbs |m| (a % |m|) 0 1).2 % |m|, ?_⟩
  unfold mpz_invert
  rw [if_neg hm]
  simp only
  rw [if_pos hone]

theorem mpz_invert_none_of_gcd {a m : Int} (hg : Int.gcd a m ≠ 1) : mpz_invert a m = none := by
  cases h : mpz_invert a m with
  | none => rfl
  | some d =>
    exfalso
    apply hg
    have h3 := (mpz_invert_some h).2.2
    have hco : IsCoprime a m := by
      have hdvd : m ∣ a * d - 1 := (Int.modEq_iff_dvd.mp h3.symm)
      obtain ⟨k, hk⟩ := hdvd
      exact ⟨d, -k, by linarith⟩
    exact Int.isCoprime_iff_gcd_eq_one.mp hco

theorem pow_mul_pred_succ_modEq {p : Nat} (hp : p.Prime) (t m : Nat) :
    m ^ (t * (p - 1) + 1) ≡ m [MOD p] := by
  by_cases hdvd : p ∣ m
  · have h0 : m ≡ 0 [MOD p] := (Nat.modEq_zero_iff_dvd).mpr hdvd
    have h1 : m ^ (t * (p - 1) + 1) ≡ 0 [MOD p] :=
      (Nat.modEq_zero_iff_dvd).mpr (dvd_pow hdvd (Nat.succ_ne_zero _))
    exact h1.trans h0.symm
  · have hco : Nat.Coprime m p := ((Nat.Prime.coprime_iff_not_dvd hp).mpr hdvd).symm
    have hf : m ^ (p - 1) ≡ 1 [MOD p] := by
      have := Nat.ModEq.pow_totient hco
      rwa [Nat.totient_prime hp] at this
    have h1 : (m ^ (p - 1)) ^ t ≡ 1 ^ t [MOD p] := hf.pow t
    rw [one_pow, ← pow_mul, mul_comm] at h1
    have h2 := h1.mul (Nat.ModEq.refl m)
    rwa [one_mul, ← pow_succ] at h2

theorem rsa_pow_modEq {p q e d : Nat} (hp : p.Prime) (hq : q.Prime) (hpq : p ≠ q)
    (hed : e * d ≡ 1 [MOD (p - 1) * (q - 1)]) (m : Nat) :
    m ^ (e * d) ≡ m [MOD p * q] := by
  have hp2 := hp.two_le
  have hq2 := hq.two_le
  have hphi : 2 ≤ (p - 1) * (q - 1) := by
    have h1 : 1 ≤ p - 1 := by omega
    have h2 : 1 ≤ q - 1 := by omega
    rcases Nat.lt_or_ge p 3 with h | h
    · have hp' : p = 2 := by omega
      have : 2 ≤ q - 1 := by omega
      calc 2 = 1 * 2 := by norm_num
        _ ≤ (p - 1) * (q - 1) := Nat.mul_le_mul h1 this
    · have : 2 ≤ p - 1 := by omega
      calc 2 = 2 * 1 := by norm_num
        _ ≤ (p - 1) * (q - 1) := Nat.mul_le_mul this h2
  have hmod : e * d % ((p - 1) * (q - 1)) = 1 := by
    have := hed
    unfold Nat.ModEq at this
    rwa [Nat.mod_eq_of_lt (by omega : 1 < (p - 1) * (q - 1))] at this
  have hdec : e * d = (e * d / ((p - 1) * (q - 1))) * ((p - 1) * (q - 1)) + 1 := by
    have := Nat.div_add_mod (e * d) ((p - 1) * (q - 1))
    rw [hmod, mul_comm] at this
    exact this.symm
  have hP : m ^ (e * d) ≡ m [MOD p] := by
    rw [hdec]
    have : (e * d / ((p - 1) * (q - 1))) * ((p - 1) * (q - 1)) =
        ((e * d / ((p - 1) * (q - 1))) * (q - 1)) * (p - 1) := by ring
    rw [this]
    exact pow_mul_pred_succ_modEq hp _ m
  have hQ : m ^ (e * d) ≡ m [MOD q] := by
    rw [hdec]
    have : (e * d / ((p - 1) * (q - 1))) * ((p - 1) * (q - 1)) =
        ((e * d / ((p - 1) * (q - 1))) * (p - 1)) * (q - 1) := by ring
    rw [this]
    exact pow_mul_pred_succ_modEq hq _ m
  exact (Nat.modEq_and_modEq_iff_modEq_mul ((Nat.coprime_primes hp hq).mpr hpq)).mp ⟨hP, hQ⟩

/-- On a non-negative exponent and a positive modulus `mpz_powm` is `base ^ exp % mod`. -/
theorem mpz_powm_natCast (b e n : Nat) (hn : 0 < n) :
    mpz_powm (b : Int) (e : Int) (n : Int) = some ((b ^ e % n : Nat) : Int) := by
  unfold mpz_powm
  have hn0 : (n : Int) ≠ 0 := by exact_mod_cast (Nat.pos_iff_ne_zero.mp hn)
  rw [if_neg hn0, if_pos (Int.natCast_nonneg e)]
  have h1 : ((b : Int) % |(n : Int)|).toNat = b % n := by
    rw [abs_of_nonneg (Int.natCast_nonneg n)]
    have : ((b : Int) % (n : Int)) = ((b % n : Nat) : Int) := by exact_mod_cast rfl
    rw [this, Int.toNat_natCast]
  rw [h1, Int.toNat_natCast, Int.natAbs_ofNat, powmNat_eq, ← Nat.pow_mod]

/-! ## Encryption -/

theorem powmNat_cast (x : Int) (k : Nat) (n : Int) (hx : 0 ≤ x) :
    ((powmNat x.toNat k n.natAbs : Nat) : Int) = x ^ k % n := by
  rw [powmNat_eq]
  push_cast
  rw [Int.toNat_of_nonneg hx]
  simp only [Int.natCast_natAbs, Int.emod_abs]

/-- What `mpz_powm` returns on a non-negative exponent. -/
theorem mpz_powm_of_nonneg (b e n : Int) (hn : n ≠ 0) (he : 0 ≤ e) :
    mpz_powm b e n = some (b ^ e.toNat % n) := by
  unfold mpz_powm
  rw [if_neg hn, if_pos he]
  have habs : (0 : Int) < |n| := abs_pos.mpr hn
  rw [powmNat_cast _ _ _ (Int.emod_nonneg _ (ne_of_gt habs))]
  congr 1
  have h1 : b % |n| ≡ b [ZMOD n] := by
    rw [Int.emod_abs]; exact Int.mod_modEq b n
  exact h1.pow e.toNat

/-- What `mpz_powm` returns when it returns. -/
theorem mpz_powm_some {b e n c : Int} (h : mpz_powm b e n = some c) :
    n ≠ 0 ∧ 0 ≤ c ∧ c < |n| ∧ (0 ≤ e → c = b ^ e.toNat % n) ∧
      (e < 0 → c * b ^ (-e).toNat % n = 1 % n) := by
  by_cases hn : n = 0
  · unfold mpz_powm at h
    rw [if_pos hn] at h
    exact absurd h (by simp)
  have habs : (0 : Int) < |n| := abs_pos.mpr hn
  by_cases he : 0 ≤ e
  · rw [mpz_powm_of_nonneg b e n hn he] at h
    injection h with h
    refine ⟨hn, ?_, ?_, fun _ => h.symm, fun h' => by omega⟩
    · rw [← h]; exact Int.emod_nonneg _ hn
    · rw [← h, ← Int.emod_abs]; exact Int.emod_lt_of_pos _ habs
  · unfold mpz_powm at h
    rw [if_neg hn, if_neg he] at h
    cases hi : mpz_invert b n with
    | none => rw [hi] at h; exact absurd h (by simp)
    | some inv =>
      rw [hi] at h
      simp only at h
      injection h with h
      have hs := mpz_invert_some hi
      rw [powmNat_cast _ _ _ hs.1] at h
      refine ⟨hn, ?_, ?_, fun h' => absurd h' he, fun _ => ?_⟩
      · rw [← h]; exact Int.emod_nonneg _ hn
      · rw [← h, ← Int.emod_abs]; exact Int.emod_lt_of_pos _ habs
      · have h1 : inv ^ (-e).toNat % n ≡ inv ^ (-e).toNat [ZMOD n] := Int.mod_modEq _ n
        have h2 : inv ^ (-e).toNat % n * b ^ (-e).toNat ≡ (b * inv) ^ (-e).toNat [ZMOD n] := by
          rw [mul_pow, mul_comm (b ^ (-e).toNat)]
          exact h1.mul (Int.ModEq.refl _)
        have h3 : (b * inv) ^ (-e).toNat ≡ 1 [ZMOD n] := by
          have := hs.2.2.pow (-e).toNat
          rwa [one_pow] at this
        rw [← h]
        exact h2.trans h3

theorem encrypt_message_accept (env : Env) (w : World) (public_key_path message_str : List Char8)
    (pub_file : List Char8)
    (hsize : mpz_sizeinbase (encodeBase256 message_str) ≤ KEY_SIZE)
    (hfile : w.files (strOf public_key_path) = some pub_file) :
    encrypt_message env w public_key_path message_str =
      match mpz_powm (encodeBase256 message_str : Int)
          (readKey (uninit env (KEY_SIZE / 2)) pub_file).2
          (readKey (uninit env (KEY_SIZE / 2)) pub_file).1 with
      | none => none
      | some ciphertext =>
        if w.writable ciphertext_file then
          some ⟨w.write ciphertext_file ([99, 58] ++ mpz_get_str ciphertext), [Out.encrypted]⟩
        else some ⟨w, [Out.errWriteCiphertext]⟩ := by
  unfold encrypt_message
  simp only
  rw [if_neg (by omega), hfile]

/-! ## The prime search -/

theorem nextprimeLoop_spec (fuel : Nat) : ∀ c : Nat, (∃ p, p.Prime ∧ c ≤ p ∧ p < c + fuel) →
    (nextprimeLoop fuel c).Prime ∧ c ≤ nextprimeLoop fuel c ∧
      ∀ k, c ≤ k → k < nextprimeLoop fuel c → ¬ k.Prime := by
  induction fuel with
  | zero =>
    intro c h
    obtain ⟨p, _, h1, h2⟩ := h
    omega
  | succ fuel ih =>
    intro c h
    unfold nextprimeLoop
    by_cases hc : c.Prime
    · rw [if_pos hc]
      exact ⟨hc, le_rfl, fun k h1 h2 => by omega⟩
    · rw [if_neg hc]
      obtain ⟨p, hp, h1, h2⟩ := h
      have hne : p ≠ c := fun h => hc (h ▸ hp)
      have := ih (c + 1) ⟨p, hp, by omega, by omega⟩
      refine ⟨this.1, by omega, ?_⟩
      intro k hk1 hk2
      by_cases hkc : k = c
      · rw [hkc]; exact hc
      · exact this.2.2 k (by omega) hk2

theorem mpz_nextprime_spec (op : Nat) :
    (mpz_nextprime op).Prime ∧ op < mpz_nextprime op ∧
      ∀ k, op < k → k < mpz_nextprime op → ¬ k.Prime := by
  have hex : ∃ p, p.Prime ∧ op + 1 ≤ p ∧ p < op + 1 + (op + 2) := by
    by_cases h0 : op = 0
    · exact ⟨2, Nat.prime_two, by omega, by omega⟩
    · obtain ⟨p, hp, h1, h2⟩ := Nat.exists_prime_lt_and_le_two_mul op h0
      exact ⟨p, hp, by omega, by omega⟩
  have := nextprimeLoop_spec (op + 2) (op + 1) hex
  exact ⟨this.1, this.2.1, fun k h1 h2 => this.2.2 k h1 h2⟩

theorem mpz_nextprime_eq {op p : Nat} (hp : p.Prime) (hlt : op < p)
    (hmin : ∀ k, op < k → k < p → ¬ k.Prime) : mpz_nextprime op = p := by
  have h := mpz_nextprime_spec op
  rcases Nat.lt_trichotomy (mpz_nextprime op) p with h1 | h1 | h1
  · exact absurd h.1 (hmin _ h.2.1 h1)
  · exact h1
  · exact absurd hp (h.2.2 _ hlt h1)

theorem mpz_nextprime_pred {p : Nat} (hp : p.Prime) : mpz_nextprime (p - 1) = p :=
  mpz_nextprime_eq hp (by have := hp.two_le; omega) (fun k h1 h2 => by omega)

theorem mpz_sizeinbase_eq_size {n : Nat} (h : n ≠ 0) : mpz_sizeinbase n = Nat.size n := by
  unfold mpz_sizeinbase
  rw [if_neg h]
  exact bitsLoop_eq_size n n le_rfl

theorem mpz_sizeinbase_eq_iff {n b : Nat} (hb : 0 < b) (hn : n ≠ 0) :
    mpz_sizeinbase n = b ↔ 2 ^ (b - 1) ≤ n ∧ n < 2 ^ b := by
  rw [mpz_sizeinbase_eq_size hn]
  constructor
  · intro h
    refine ⟨?_, ?_⟩
    · rw [← Nat.lt_size]; omega
    · rw [← Nat.size_le]; omega
  · intro h
    have h1 : b - 1 < Nat.size n := Nat.lt_size.mpr h.1
    have h2 : Nat.size n ≤ b := Nat.size_le.mpr h.2
    omega

theorem primeLoop_some (draw : Nat → Nat) (bit_size : Nat) (fuel : Nat) :
    ∀ (i : Nat) (r : Nat), primeLoop draw bit_size fuel i = some r →
      ∃ j, r = mpz_nextprime (draw j % 2 ^ bit_size) ∧ bit_size ≤ mpz_sizeinbase r := by
  induction fuel with
  | zero => intro i r h; simp [primeLoop] at h
  | succ fuel ih =>
    intro i r h
    unfold primeLoop at h
    simp only at h
    split at h
    · exact ih _ _ h
    · rename_i hsz
      injection h with h
      exact ⟨i, h.symm, by rw [← h]; omega⟩

theorem generate_random_prime_some {env : Env} {k bit_size fuel r : Nat}
    (h : generate_random_prime env k bit_size fuel = some r) :
    r.Prime ∧ bit_size ≤ mpz_sizeinbase r := by
  obtain ⟨j, hj, hs⟩ := primeLoop_some _ _ _ _ _ h
  refine ⟨?_, hs⟩
  rw [hj]
  exact (mpz_nextprime_spec _).1

/-- A draw of `p - 1` for a prime `p` of at least `bit_size` bits ends the loop with `p`. -/
theorem generate_random_prime_of_draw {env : Env} {k bit_size fuel p : Nat} (hp : p.Prime)
    (hdraw : env.urandom (env.time k) 0 % 2 ^ bit_size = p - 1)
    (hsize : bit_size ≤ mpz_sizeinbase p) :
    generate_random_prime env k bit_size (fuel + 1) = some p := by
  unfold generate_random_prime primeLoop
  simp only
  rw [hdraw, mpz_nextprime_pred hp, if_neg (by omega)]

/-- Lucas test with the prime divisors of `p - 1` listed in `qs`, run on `powmNat`. -/
theorem prime_of_lucas_cert (p a : Nat) (qs : List Nat)
    (hfac : ∀ q : Nat, q.Prime → q ∣ p - 1 → q ∈ qs)
    (h1 : powmNat a (p - 1) p = 1)
    (hq : ∀ q ∈ qs, powmNat a ((p - 1) / q) p ≠ 1) : p.Prime := by
  have hp1 : p ≠ 1 := by
    rintro rfl
    simp [powmNat_eq] at h1
  have key : ∀ k : Nat, ((a : ZMod p) ^ k = 1 ↔ powmNat a k p = 1 % p) := by
    intro k
    rw [powmNat_eq]
    have : ((a : ZMod p) ^ k = 1) ↔ (((a ^ k : Nat) : ZMod p) = ((1 : Nat) : ZMod p)) := by
      simp
    rw [this, ZMod.natCast_eq_natCast_iff']
  have hone : 1 % p = 1 := by
    rcases Nat.lt_or_ge p 2 with h | h
    · have : p = 0 := by omega
      subst this; rfl
    · exact Nat.mod_eq_of_lt h
  apply lucas_primality p (a : ZMod p)
  · rw [key, hone]; exact h1
  · intro q hq1 hq2
    rw [Ne, key, hone]
    exact hq q (hfac q hq1 hq2)

theorem prime_dvd_two_three {q x y : Nat} (hq : q.Prime) (h : q ∣ 2 ^ x * 3 ^ y) :
    q = 2 ∨ q = 3 := by
  rcases (Nat.Prime.dvd_mul hq).mp h with h | h
  · exact Or.inl ((Nat.prime_dvd_prime_iff_eq hq Nat.prime_two).mp (hq.dvd_of_dvd_pow h))
  · exact Or.inr ((Nat.prime_dvd_prime_iff_eq hq Nat.prime_three).mp (hq.dvd_of_dvd_pow h))

set_option maxRecDepth 100000 in
set_option exponentiation.threshold 1000 in
theorem primeP_prime : primeP.Prime := by
  have hfac : primeP - 1 = 2 ^ 475 * 3 ^ 23 := by decide
  apply prime_of_lucas_cert primeP 5 [2, 3]
  · intro q hq hd
    rw [hfac] at hd
    rcases prime_dvd_two_three hq hd with h | h <;> simp [h]
  · decide
  · intro q hq
    simp only [List.mem_cons, List.mem_singleton, List.not_mem_nil, or_false] at hq
    rcases hq with rfl | rfl <;> decide

set_option maxRecDepth 100000 in
set_option exponentiation.threshold 1000 in
theorem primeQ_prime : primeQ.Prime := by
  have hfac : primeQ - 1 = 2 ^ 399 * 3 ^ 71 := by decide
  apply prime_of_lucas_cert primeQ 5 [2, 3]
  · intro q hq hd
    rw [hfac] at hd
    rcases prime_dvd_two_three hq hd with h | h <;> simp [h]
  · decide
  · intro q hq
    simp only [List.mem_cons, List.mem_singleton, List.not_mem_nil, or_false] at hq
    rcases hq with rfl | rfl <;> decide

set_option maxRecDepth 100000 in
set_option exponentiation.threshold 1000 in
theorem primeR_prime : primeR.Prime := by
  have hfac : primeR - 1 = 65537 * (2 ^ 380 * 3 ^ 73) := by decide
  have h65537 : Nat.Prime 65537 := by norm_num
  apply prime_of_lucas_cert primeR 11 [2, 3, 65537]
  · intro q hq hd
    rw [hfac] at hd
    rcases (Nat.Prime.dvd_mul hq).mp hd with h | h
    · have := (Nat.prime_dvd_prime_iff_eq hq h65537).mp h
      simp [this]
    · rcases prime_dvd_two_three hq h with h | h <;> simp [h]
  · decide
  · intro q hq
    simp only [List.mem_cons, List.mem_singleton, List.not_mem_nil, or_false] at hq
    rcases hq with rfl | rfl | rfl <;> decide

/-! ## The base-256 codec -/

theorem strOf_cons_ne {c : Char8} (h : c ≠ 0) (rest : List Char8) :
    strOf (c :: rest) = c :: strOf rest := by
  simp [strOf, List.takeWhile_cons, h]

theorem strOf_cons_zero (rest : List Char8) : strOf ((0 : Char8) :: rest) = [] := by
  simp [strOf, List.takeWhile_cons]

theorem ne_zero_of_mem_strOf {mem : List Char8} {c : Char8} (h : c ∈ strOf mem) : c ≠ 0 := by
  have := List.mem_takeWhile_imp h
  simpa using this

theorem strOf_eq_self {s : List Char8} (h : ∀ c ∈ s, c ≠ 0) : strOf s = s := by
  induction s with
  | nil => rfl
  | cons c s ih =>
    rw [strOf_cons_ne (h c (List.mem_cons_self _ _)), ih (fun x hx => h x (List.mem_cons_of_mem _ hx))]

theorem strOf_append_zero {s : List Char8} (h : ∀ c ∈ s, c ≠ 0) (rest : List Char8) :
    strOf (s ++ 0 :: rest) = s := by
  induction s with
  | nil => exact strOf_cons_zero rest
  | cons c s ih =>
    rw [List.cons_append, strOf_cons_ne (h c (List.mem_cons_self _ _)),
      ih (fun x hx => h x (List.mem_cons_of_mem _ hx))]

/-- The big-endian base-256 value of a byte list. -/
theorem encodeLoop_eq_ofDigits (mem : List Char8) : ∀ number : Nat,
    encodeLoop number mem = number * 256 ^ (strOf mem).length +
      Nat.ofDigits 256 (((strOf mem).map Fin.val).reverse) := by
  induction mem with
  | nil => intro number; simp [encodeLoop, strOf]
  | cons c rest ih =>
    intro number
    unfold encodeLoop
    by_cases hc : c = 0
    · subst hc
      rw [if_pos rfl, strOf_cons_zero]
      simp
    · rw [if_neg hc, strOf_cons_ne hc, ih]
      simp only [List.length_cons, List.map_cons, List.reverse_cons, Nat.ofDigits_append,
        List.length_reverse, List.length_map, Nat.ofDigits_singleton]
      ring

theorem encodeLoop_eq_sum (mem : List Char8) : ∀ number : Nat,
    encodeLoop number mem = number * 256 ^ (strOf mem).length +
      ∑ i in Finset.range (strOf mem).length,
        ((strOf mem).getD i 0).val * 256 ^ ((strOf mem).length - 1 - i) := by
  induction mem with
  | nil => intro number; simp [encodeLoop, strOf]
  | cons c rest ih =>
    intro number
    unfold encodeLoop
    by_cases hc : c = 0
    · subst hc
      rw [if_pos rfl, strOf_cons_zero]
      simp
    · rw [if_neg hc, strOf_cons_ne hc, ih, List.length_cons, Finset.sum_range_succ']
      have hterm : ∀ i, ((c :: strOf rest).getD (i + 1) 0).val *
          256 ^ ((strOf rest).length + 1 - 1 - (i + 1)) =
          ((strOf rest).getD i 0).val * 256 ^ ((strOf rest).length - 1 - i) := by
        intro i
        have : (strOf rest).length + 1 - 1 - (i + 1) = (strOf rest).length - 1 - i := by omega
        rw [this]
        simp
      simp only [hterm]
      simp only [List.getD_cons_zero, Nat.add_sub_cancel, Nat.sub_zero]
      ring

theorem set_append_cons (A B : List Char8) (x y : Char8) :
    (A ++ x :: B).set A.length y = A ++ y :: B := by
  induction A with
  | nil => rfl
  | cons a A ih => simp [ih]

theorem get?_append_cons (A B : List Char8) (x : Char8) :
    (A ++ x :: B).get? A.length = some x := by
  induction A with
  | nil => rfl
  | cons a A ih => simpa using ih

theorem digitLoop_eq (fuel : Nat) : ∀ (temp : Nat) (A X B : List Char8),
    temp ≤ fuel → X.length = (Nat.digits 256 temp).length →
    digitLoop fuel temp (A ++ X ++ B) A.length =
      some (A ++ (Nat.digits 256 temp).map Fin.ofNat ++ B,
        A.length + (Nat.digits 256 temp).length) := by
  induction fuel with
  | zero =>
    intro temp A X B h hX
    have : temp = 0 := by omega
    subst this
    simp only [Nat.digits_zero, List.length_nil, List.length_eq_zero] at hX
    subst hX
    simp [digitLoop]
  | succ fuel ih =>
    intro temp A X B hle hX
    unfold digitLoop
    by_cases h0 : 0 < temp
    · rw [if_pos h0]
      have hd : Nat.digits 256 temp = temp % 256 :: Nat.digits 256 (temp / 256) :=
        Nat.digits_def' (by norm_num) h0
      rw [hd] at hX ⊢
      match X, hX with
      | [], hX => simp at hX
      | x :: X1, hX =>
        have hX1 : X1.length = (Nat.digits 256 (temp / 256)).length := by simpa using hX
        have hstr : A ++ x :: X1 ++ B = A ++ x :: (X1 ++ B) := by simp
        rw [hstr]
        unfold writeAt
        rw [if_pos (by simp), set_append_cons]
        simp only
        have hstr2 : A ++ Fin.ofNat (temp % 256) :: (X1 ++ B) =
            (A ++ [Fin.ofNat (temp % 256)]) ++ X1 ++ B := by simp
        have hidx : A.length + 1 = (A ++ [(Fin.ofNat (temp % 256) : Char8)]).length := by simp
        rw [hstr2, hidx, ih (temp / 256) _ X1 B (by omega) hX1]
        simp only [List.length_append, List.length_singleton, List.map_cons, List.length_cons,
          List.append_assoc, List.singleton_append]
        simp only [List.length_nil, Nat.zero_add, Nat.add_comm 1]
        rw [show A.length + 1 + (Nat.digits 256 (temp / 256)).length =
          A.length + ((Nat.digits 256 (temp / 256)).length + 1) by omega]
    · have : temp = 0 := by omega
      subst this
      simp only [Nat.digits_zero, List.length_nil, List.length_eq_zero] at hX
      subst hX
      simp

theorem reverseLoop_eq (fuel : Nat) : ∀ (M A B : List Char8), M.length ≤ 2 * fuel + 1 →
    reverseLoop fuel (A ++ M ++ B) A.length (A.length + M.length - 1) =
      some (A ++ M.reverse ++ B) := by
  induction fuel with
  | zero =>
    intro M A B h
    unfold reverseLoop
    rw [if_neg (by omega)]
    match M, h with
    | [], _ => simp
    | [a], _ => simp
    | _ :: _ :: _, h => simp at h
  | succ fuel ih =>
    intro M A B h
    unfold reverseLoop
    match M, h with
    | [], _ => rw [if_neg (by simp)]; simp
    | [a], _ => rw [if_neg (by simp)]; simp
    | a :: c :: M1, h =>
      have hne : c :: M1 ≠ [] := by simp
      obtain ⟨M2, b, hM⟩ : ∃ M2 b, c :: M1 = M2 ++ [b] :=
        ⟨(c :: M1).dropLast, (c :: M1).getLast hne, (List.dropLast_append_getLast hne).symm⟩
      have hlen2 : M1.length + 1 = M2.length + 1 := by
        have := congrArg List.length hM
        simpa using this
      rw [hM]
      have hlen : (a :: (M2 ++ [b])).length = M2.length + 2 := by simp
      rw [hlen]
      rw [if_pos (by omega)]
      have hend : A.length + (M2.length + 2) - 1 = (A ++ a :: M2).length := by
        simp only [List.length_append, List.length_cons]; omega
      have hstr : A ++ a :: (M2 ++ [b]) ++ B = A ++ a :: (M2 ++ b :: B) := by simp
      have hstr' : A ++ a :: (M2 ++ b :: B) = (A ++ a :: M2) ++ b :: B := by simp
      have g1 : (A ++ a :: (M2 ++ [b]) ++ B).get? A.length = some a := by
        rw [hstr]; exact get?_append_cons _ _ _
      have g2 : (A ++ a :: (M2 ++ [b]) ++ B).get? (A.length + (M2.length + 2) - 1) = some b := by
        rw [hstr, hstr', hend]; exact get?_append_cons _ _ _
      rw [g1, g2]
      simp only
      have s1 : (A ++ a :: (M2 ++ [b]) ++ B).set A.length b = (A ++ b :: M2) ++ b :: B := by
        rw [hstr, set_append_cons]; simp
      have hend' : A.length + (M2.length + 2) - 1 = (A ++ b :: M2).length := by
        simp only [List.length_append, List.length_cons]; omega
      have s2 : ((A ++ b :: M2) ++ b :: B).set (A.length + (M2.length + 2) - 1) a =
          (A ++ [b]) ++ M2 ++ (a :: B) := by
        rw [hend', set_append_cons]; simp
      rw [s1, s2]
      have hidx1 : A.length + 1 = (A ++ [b]).length := by simp
      have hidx2 : A.length + (M2.length + 2) - 1 - 1 = (A ++ [b]).length + M2.length - 1 := by
        simp only [List.length_append, List.length_singleton]; omega
      rw [hidx1, hidx2, ih M2 (A ++ [b]) (a :: B) (by simp at h; omega)]
      simp

theorem digits_encodeBase256 (mem : List Char8) :
    Nat.digits 256 (encodeBase256 mem) = ((strOf mem).map Fin.val).reverse := by
  unfold encodeBase256
  rw [encodeLoop_eq_ofDigits, zero_mul, zero_add]
  apply Nat.digits_ofDigits 256 (by norm_num)
  · intro l hl
    rw [List.mem_reverse, List.mem_map] at hl
    obtain ⟨c, _, rfl⟩ := hl
    exact c.isLt
  · intro hne
    have hmem : (((strOf mem).map Fin.val).reverse).getLast hne ∈
        ((strOf mem).map Fin.val).reverse := List.getLast_mem hne
    rw [List.mem_reverse, List.mem_map] at hmem
    obtain ⟨c, hc, hval⟩ := hmem
    rw [← hval]
    intro h
    exact ne_zero_of_mem_strOf hc (Fin.ext h)

/-- Decoding the encoding of a non-empty string writes the string and its terminator at
the start of the destination array. -/
theorem decodeBase256_encodeBase256 (mem string : List Char8) (hne : strOf mem ≠ [])
    (hcap : (strOf mem).length < string.length) (hmax : string.length ≤ SIZE_MOD) :
    decodeBase256 string (encodeBase256 mem) =
      some (strOf mem ++ 0 :: string.drop ((strOf mem).length + 1)) := by
  unfold decodeBase256
  have hd := digits_encodeBase256 mem
  have hlen : (Nat.digits 256 (encodeBase256 mem)).length = (strOf mem).length := by
    rw [hd]; simp
  have hk : 0 < (strOf mem).length := List.length_pos.mpr hne
  have hsplit : string = [] ++ string.take (strOf mem).length ++ string.drop (strOf mem).length := by
    simp
  have htake : (string.take (strOf mem).length).length =
      (Nat.digits 256 (encodeBase256 mem)).length := by
    rw [hlen, List.length_take]; omega
  rw [Int.toNat_natCast]
  conv_lhs => rw [hsplit]
  have hdl := digitLoop_eq (encodeBase256 mem) (encodeBase256 mem) []
    (string.take (strOf mem).length) (string.drop (strOf mem).length) le_rfl htake
  simp only [List.length_nil] at hdl
  rw [hdl]
  simp only [hlen, Nat.zero_add, List.nil_append]
  have hmap : (Nat.digits 256 (encodeBase256 mem)).map (Fin.ofNat : Nat → Char8) =
      (strOf mem).reverse := by
    rw [hd, ← List.map_reverse, List.map_map]
    conv_rhs => rw [← List.map_id (strOf mem).reverse]
    apply List.map_congr_left
    intro c _
    apply Fin.ext
    simp [Fin.ofNat, Nat.mod_eq_of_lt c.isLt]
  rw [hmap]
  unfold writeAt
  rw [if_pos (by simp; omega)]
  simp only
  have hset : ((strOf mem).reverse ++ string.drop (strOf mem).length).set (strOf mem).length 0 =
      [] ++ (strOf mem).reverse ++ 0 :: string.drop ((strOf mem).length + 1) := by
    rw [List.set_append_right _ _ (by simp)]
    simp only [List.length_reverse, Nat.sub_self, List.nil_append]
    congr 1
    have : string.drop (strOf mem).length =
        string.get ⟨(strOf mem).length, hcap⟩ :: string.drop ((strOf mem).length + 1) := by
      rw [List.get_eq_getElem]
      exact List.drop_eq_getElem_cons hcap
    rw [this]
    rfl
  rw [hset]
  have hend : ((strOf mem).length + SIZE_MOD - 1) % SIZE_MOD =
      ([] : List Char8).length + (strOf mem).reverse.length - 1 := by
    simp only [List.length_nil, List.length_reverse, Nat.zero_add]
    have : (strOf mem).length + SIZE_MOD - 1 = ((strOf mem).length - 1) + SIZE_MOD := by omega
    rw [this, Nat.add_mod_right, Nat.mod_eq_of_lt (by omega)]
  rw [hend]
  have := reverseLoop_eq (([] : List Char8).length + (strOf mem).reverse.length - 1)
    (strOf mem).reverse [] (0 :: string.drop ((strOf mem).length + 1))
    (by simp only [List.length_nil, List.length_reverse, Nat.zero_add]; omega)
  simp only [List.length_nil] at this ⊢
  rw [this]
  simp

/-! ## Key generation -/

theorem redrawLoop_some (env : Env) (p inner : Nat) (fuel : Nat) : ∀ (k q0 q : Nat),
    redrawLoop env p inner fuel k q0 = some q →
      p ≠ q ∧ (q = q0 ∨ ∃ j, generate_random_prime env j (KEY_SIZE / 2) inner = some q) := by
  induction fuel with
  | zero =>
    intro k q0 q h
    unfold redrawLoop at h
    split at h
    · exact absurd h (by simp)
    · rename_i hne
      injection h with h
      subst h
      exact ⟨hne, Or.inl rfl⟩
  | succ fuel ih =>
    intro k q0 q h
    unfold redrawLoop at h
    split at h
    · cases hg : generate_random_prime env k (KEY_SIZE / 2) inner with
      | none => rw [hg] at h; exact absurd h (by simp)
      | some q1 =>
        rw [hg] at h
        simp only at h
        have := ih (k + 1) q1 q h
        refine ⟨this.1, Or.inr ?_⟩
        rcases this.2 with h2 | h2
        · exact ⟨k, by rw [hg, h2]⟩
        · exact h2
    · rename_i hne
      injection h with h
      subst h
      exact ⟨hne, Or.inl rfl⟩

/-- A run of `generate_rsa_keys` that ends has drawn two distinct primes of at least
`KEY_SIZE / 2` bits and then derived and written the key from them. -/
theorem generate_rsa_keys_some {env : Env} {fuel : Nat} {w : World} {keys_path : List Char8}
    {r : KeyGen} (h : generate_rsa_keys env fuel w keys_path = some r) :
    r.p.Prime ∧ r.q.Prime ∧ r.p ≠ r.q ∧ KEY_SIZE / 2 ≤ mpz_sizeinbase r.p ∧
      KEY_SIZE / 2 ≤ mpz_sizeinbase r.q ∧ r = writeKeys env w keys_path r.p r.q := by
  unfold generate_rsa_keys at h
  cases hp : generate_random_prime env 0 (KEY_SIZE / 2) fuel with
  | none => rw [hp] at h; exact absurd h (by simp)
  | some p =>
    rw [hp] at h
    simp only at h
    cases hq0 : generate_random_prime env 1 (KEY_SIZE / 2) fuel with
    | none => rw [hq0] at h; exact absurd h (by simp)
    | some q0 =>
      rw [hq0] at h
      simp only at h
      cases hq : redrawLoop env p fuel fuel 2 q0 with
      | none => rw [hq] at h; exact absurd h (by simp)
      | some q =>
        rw [hq] at h
        simp only at h
        injection h with h
        have hP := generate_random_prime_some hp
        have hR := redrawLoop_some env p fuel fuel 2 q0 q hq
        have hQ : q.Prime ∧ KEY_SIZE / 2 ≤ mpz_sizeinbase q := by
          rcases hR.2 with h2 | ⟨j, h2⟩
          · rw [h2]; exact generate_random_prime_some hq0
          · exact generate_random_prime_some h2
        have hrp : r.p = p := by rw [← h]; rfl
        have hrq : r.q = q := by rw [← h]; rfl
        rw [hrp, hrq]
        exact ⟨hP.1, hQ.1, hR.1, hP.2, hQ.2, h.symm⟩

/-- Two first draws that land on distinct primes `p`, `q` of at least `KEY_SIZE / 2` bits
make the run end with the key of `p` and `q`. -/
theorem generate_rsa_keys_of_draws {env : Env} {fuel : Nat} {w : World}
    {keys_path : List Char8} {p q : Nat} (hp : p.Prime) (hq : q.Prime) (hne : p ≠ q)
    (hdp : env.urandom (env.time 0) 0 % 2 ^ (KEY_SIZE / 2) = p - 1)
    (hdq : env.urandom (env.time 1) 0 % 2 ^ (KEY_SIZE / 2) = q - 1)
    (hsp : KEY_SIZE / 2 ≤ mpz_sizeinbase p) (hsq : KEY_SIZE / 2 ≤ mpz_sizeinbase q) :
    generate_rsa_keys env (fuel + 1) w keys_path = some (writeKeys env w keys_path p q) := by
  unfold generate_rsa_keys
  rw [generate_random_prime_of_draw hp hdp hsp, generate_random_prime_of_draw hq hdq hsq]
  simp only
  unfold redrawLoop
  rw [if_neg hne]

theorem phi_ge_two {p q : Nat} (hp : p.Prime) (hq : q.Prime) (hne : p ≠ q) :
    (2 : Int) ≤ ((p : Int) - 1) * ((q : Int) - 1) := by
  have hp2 : (2 : Int) ≤ p := by exact_mod_cast hp.two_le
  have hq2 : (2 : Int) ≤ q := by exact_mod_cast hq.two_le
  have h3 : (3 : Int) ≤ p ∨ (3 : Int) ≤ q := by
    by_contra hcon
    push_neg at hcon
    have h1 : (p : Int) = 2 := by omega
    have h2 : (q : Int) = 2 := by omega
    exact hne (by exact_mod_cast h1.trans h2.symm)
  rcases h3 with h | h
  · nlinarith
  · nlinarith

theorem writeKeys_key_n (env : Env) (w : World) (keys_path : List Char8) (p q : Nat) :
    (writeKeys env w keys_path p q).key.n = (p : Int) * (q : Int) := rfl

theorem writeKeys_key_e (env : Env) (w : World) (keys_path : List Char8) (p q : Nat) :
    (writeKeys env w keys_path p q).key.e = 65537 := rfl

theorem writeKeys_key_d (env : Env) (w : World) (keys_path : List Char8) (p q : Nat) :
    (writeKeys env w keys_path p q).key.d =
      match mpz_invert 65537 (((p : Int) - 1) * ((q : Int) - 1)) with
      | some d => d
      | none => env.invert_undef := rfl

theorem writeKeys_p (env : Env) (w : World) (keys_path : List Char8) (p q : Nat) :
    (writeKeys env w keys_path p q).p = p := rfl

theorem writeKeys_q (env : Env) (w : World) (keys_path : List Char8) (p q : Nat) :
    (writeKeys env w keys_path p q).q = q := rfl

/-- The private key file after `writeKeys`, when it can be opened for writing. -/
theorem writeKeys_private_file (env : Env) (w : World) (keys_path : List Char8) (p q : Nat)
    (hw : w.writable (private_key_path keys_path) = true) :
    (writeKeys env w keys_path p q).world.files (private_key_path keys_path) =
      some (keyFile 100 (mpz_get_str (writeKeys env w keys_path p q).key.n)
        (mpz_get_str (writeKeys env w keys_path p q).key.d)) := by
  unfold writeKeys
  simp only
  by_cases hpub : w.writable (public_key_path keys_path) = true
  · simp [hpub, hw, World.write]
  · simp [hpub, hw, World.write]

/-- The public key file after `writeKeys`, when it can be opened for writing and is not
the private key file. -/
theorem writeKeys_public_file (env : Env) (w : World) (keys_path : List Char8) (p q : Nat)
    (hw : w.writable (public_key_path keys_path) = true)
    (hne : public_key_path keys_path ≠ private_key_path keys_path) :
    (writeKeys env w keys_path p q).world.files (public_key_path keys_path) =
      some (keyFile 101 (mpz_get_str (writeKeys env w keys_path p q).key.n)
        (mpz_get_str (writeKeys env w keys_path p q).key.e)) := by
  unfold writeKeys
  simp only
  by_cases hpriv : w.writable (private_key_path keys_path) = true
  · simp only [hw, if_true, World.write, hpriv]
    simp [hne]
  · simp only [hw, if_true, World.write, hpriv]
    simp

/-- The lines printed by `writeKeys`: only file errors, and the success line last. -/
theorem writeKeys_out (env : Env) (w : World) (keys_path : List Char8) (p q : Nat) :
    (writeKeys env w keys_path p q).out =
      (if w.writable (public_key_path keys_path) = true then []
        else [Out.errWritePublicKey (public_key_path keys_path)]) ++
      (if w.writable (private_key_path keys_path) = true then []
        else [Out.errWritePrivateKey (private_key_path keys_path)]) ++ [Out.keysGenerated] := by
  unfold writeKeys
  simp only
  by_cases hpub : w.writable (public_key_path keys_path) = true <;>
    by_cases hpriv : w.writable (private_key_path keys_path) = true <;>
    simp [hpub, hpriv, World.write]

/-! ## Concrete runs -/

set_option maxRecDepth 100000 in
theorem primeP_size : mpz_sizeinbase primeP = 512 := by decide

set_option maxRecDepth 100000 in
theorem primeQ_size : mpz_sizeinbase primeQ = 512 := by decide

set_option maxRecDepth 100000 in
theorem primeR_size : mpz_sizeinbase primeR = 512 := by decide

theorem lt_two_pow_of_size {n b : Nat} (h : mpz_sizeinbase n = b) : n < 2 ^ b := by
  by_cases hn : n = 0
  · subst hn; positivity
  · rw [mpz_sizeinbase_eq_size hn] at h
    rw [← h]
    exact Nat.lt_size_self n

theorem envDraws_first (a b : Nat) (h : mpz_sizeinbase a ≤ KEY_SIZE / 2) :
    (envDraws a b).urandom ((envDraws a b).time 0) 0 % 2 ^ (KEY_SIZE / 2) = a := by
  have h1 : a < 2 ^ mpz_sizeinbase a := lt_two_pow_of_size rfl
  have h2 : 2 ^ mpz_sizeinbase a ≤ 2 ^ (KEY_SIZE / 2) := Nat.pow_le_pow_right (by norm_num) h
  show a % 2 ^ (KEY_SIZE / 2) = a
  exact Nat.mod_eq_of_lt (lt_of_lt_of_le h1 h2)

theorem envDraws_second (a b : Nat) (h : mpz_sizeinbase b ≤ KEY_SIZE / 2) :
    (envDraws a b).urandom ((envDraws a b).time 1) 0 % 2 ^ (KEY_SIZE / 2) = b := by
  have h1 : b < 2 ^ mpz_sizeinbase b := lt_two_pow_of_size rfl
  have h2 : 2 ^ mpz_sizeinbase b ≤ 2 ^ (KEY_SIZE / 2) := Nat.pow_le_pow_right (by norm_num) h
  show b % 2 ^ (KEY_SIZE / 2) = b
  exact Nat.mod_eq_of_lt (lt_of_lt_of_le h1 h2)

set_option maxRecDepth 100000 in
theorem size_primeP_pred : mpz_sizeinbase (primeP - 1) ≤ KEY_SIZE / 2 := by decide

set_option maxRecDepth 100000 in
theorem size_primeQ_pred : mpz_sizeinbase (primeQ - 1) ≤ KEY_SIZE / 2 := by decide

set_option maxRecDepth 100000 in
theorem size_primeR_pred : mpz_sizeinbase (primeR - 1) ≤ KEY_SIZE / 2 := by decide

/-- The run in which the two draws are `primeP - 1` and `primeQ - 1`. -/
theorem run_P_Q (w : World) (keys_path : List Char8) :
    generate_rsa_keys (envDraws (primeP - 1) (primeQ - 1)) 1 w keys_path =
      some (writeKeys (envDraws (primeP - 1) (primeQ - 1)) w keys_path primeP primeQ) :=
  generate_rsa_keys_of_draws primeP_prime primeQ_prime (by decide)
    (envDraws_first _ _ size_primeP_pred) (envDraws_second _ _ size_primeQ_pred)
    (by rw [primeP_size]; decide) (by rw [primeQ_size]; decide)

/-- The run in which the two draws are `primeR - 1` and `primeP - 1`. -/
theorem run_R_P (w : World) (keys_path : List Char8) :
    generate_rsa_keys (envDraws (primeR - 1) (primeP - 1)) 1 w keys_path =
      some (writeKeys (envDraws (primeR - 1) (primeP - 1)) w keys_path primeR primeP) :=
  generate_rsa_keys_of_draws primeR_prime primeP_prime (by decide)
    (envDraws_first _ _ size_primeR_pred) (envDraws_second _ _ size_primeP_pred)
    (by rw [primeR_size]; decide) (by rw [primeP_size]; decide)

/-- The run in which the two draws are `primeP - 1` and `primeR - 1`. -/
theorem run_P_R (w : World) (keys_path : List Char8) :
    generate_rsa_keys (envDraws (primeP - 1) (primeR - 1)) 1 w keys_path =
      some (writeKeys (envDraws (primeP - 1) (primeR - 1)) w keys_path primeP primeR) :=
  generate_rsa_keys_of_draws primeP_prime primeR_prime (by decide)
    (envDraws_first _ _ size_primeP_pred) (envDraws_second _ _ size_primeR_pred)
    (by rw [primeP_size]; decide) (by rw [primeR_size]; decide)

theorem mpz_nextprime_251 : mpz_nextprime 251 = 257 := by
  apply mpz_nextprime_eq (by norm_num) (by norm_num)
  intro k h1 h2
  interval_cases k <;> norm_num

theorem mpz_nextprime_le_two_mul {op : Nat} (h : op ≠ 0) : mpz_nextprime op ≤ 2 * op := by
  obtain ⟨p, hp, h1, h2⟩ := Nat.exists_prime_lt_and_le_two_mul op h
  by_contra hcon
  push_neg at hcon
  exact (mpz_nextprime_spec op).2.2 p h1 (by omega) hp

theorem mpz_sizeinbase_all_ones {b : Nat} (hb : 0 < b) : mpz_sizeinbase (2 ^ b - 1) = b := by
  have h2 : 2 ^ b = 2 * 2 ^ (b - 1) := by
    rw [← pow_succ']; congr 1; omega
  have hpos : 0 < 2 ^ (b - 1) := by positivity
  rw [mpz_sizeinbase_eq_iff hb (by omega)]
  constructor <;> omega

/-- A draw of `2 ^ bit_size - 1` ends the loop with a prime of `bit_size + 1` bits. -/
theorem generate_random_prime_all_ones {env : Env} {k bit_size fuel : Nat} (hb : 0 < bit_size)
    (hdraw : env.urandom (env.time k) 0 % 2 ^ bit_size = 2 ^ bit_size - 1) :
    ∃ r, generate_random_prime env k bit_size (fuel + 1) = some r ∧ r.Prime ∧
      mpz_sizeinbase r = bit_size + 1 := by
  have h2 : 2 ^ bit_size = 2 * 2 ^ (bit_size - 1) := by
    rw [← pow_succ']; congr 1; omega
  have hpos : 0 < 2 ^ (bit_size - 1) := by positivity
  have hsp := mpz_nextprime_spec (2 ^ bit_size - 1)
  have hle := @mpz_nextprime_le_two_mul (2 ^ bit_size - 1) (by omega)
  have hsize : mpz_sizeinbase (mpz_nextprime (2 ^ bit_size - 1)) = bit_size + 1 := by
    rw [mpz_sizeinbase_eq_iff (by omega) hsp.1.ne_zero]
    have h3 : 2 ^ (bit_size + 1) = 2 * 2 ^ bit_size := pow_succ' 2 bit_size
    simp only [Nat.add_sub_cancel]
    constructor <;> omega
  refine ⟨mpz_nextprime (2 ^ bit_size - 1), ?_, hsp.1, hsize⟩
  unfold generate_random_prime primeLoop
  simp only
  rw [hdraw, if_neg (by omega)]

theorem gcd_eq_one_of_mul_modEq_one {a d m : Int} (h : a * d ≡ 1 [ZMOD m]) :
    Int.gcd a m = 1 := by
  have hdvd : m ∣ a * d - 1 := Int.modEq_iff_dvd.mp h.symm
  obtain ⟨k, hk⟩ := hdvd
  have hco : IsCoprime a m := ⟨d, -k, by linarith⟩
  exact Int.isCoprime_iff_gcd_eq_one.mp hco

/-! ## Lemmas for the reader, the decimal form and the key sizes -/

theorem mpz_nextprime_131 : mpz_nextprime 131 = 137 := by
  apply mpz_nextprime_eq (by norm_num) (by norm_num)
  intro k h1 h2
  interval_cases k <;> norm_num

theorem mpz_sizeinbase_mono {a b : Nat} (h : a ≤ b) : mpz_sizeinbase a ≤ mpz_sizeinbase b := by
  by_cases ha : a = 0
  · subst ha
    by_cases hb : b = 0
    · subst hb; exact le_rfl
    · rw [mpz_sizeinbase_eq_size hb]
      have : 0 < Nat.size b := Nat.size_pos.mpr (Nat.pos_of_ne_zero hb)
      have h0 : mpz_sizeinbase 0 = 1 := rfl
      omega
  · have hb : b ≠ 0 := by omega
    rw [mpz_sizeinbase_eq_size ha, mpz_sizeinbase_eq_size hb]
    exact Nat.size_le_size h

/-- A first draw of at least `bit_size` bits ends the loop with the next prime after it. -/
theorem generate_random_prime_first_draw {env : Env} {k bit_size fuel r : Nat}
    (hdraw : env.urandom (env.time k) 0 % 2 ^ bit_size = r)
    (hsize : bit_size ≤ mpz_sizeinbase r) :
    generate_random_prime env k bit_size (fuel + 1) = some (mpz_nextprime r) := by
  unfold generate_random_prime primeLoop
  simp only
  have := mpz_sizeinbase_mono (le_of_lt (mpz_nextprime_spec r).2.1)
  rw [hdraw, if_neg (by omega)]

/-- Decoding zero into an array below `2 ^ 64` bytes leaves the array. -/
theorem decodeBase256_zero (string : List Char8) (h : string.length < SIZE_MOD) :
    decodeBase256 string 0 = none := by
  unfold decodeBase256
  simp only [Int.toNat_zero, digitLoop, lt_irrefl, if_false]
  unfold writeAt
  by_cases h0 : 0 < string.length
  · rw [if_pos h0]
    simp only
    have hE : (0 + SIZE_MOD - 1) % SIZE_MOD = 18446744073709551614 + 1 := by decide
    rw [hE]
    unfold reverseLoop
    rw [if_pos (by omega)]
    have hget : (string.set 0 0).get? (18446744073709551614 + 1) = none := by
      rw [List.get?_eq_none]
      rw [List.length_set]
      unfold SIZE_MOD at h
      omega
    rw [hget]
    cases (string.set 0 0).get? 0 <;> rfl
  · rw [if_neg h0]

theorem generate_random_prime_congr (env : Env) (k1 k2 bit_size fuel : Nat)
    (h : env.time k1 = env.time k2) :
    generate_random_prime env k1 bit_size fuel = generate_random_prime env k2 bit_size fuel := by
  unfold generate_random_prime
  rw [h]

theorem redrawLoop_same_clock (env : Env) (p inner : Nat) (fuel : Nat) : ∀ k : Nat,
    (∀ j, k ≤ j → j < k + fuel → env.time j = env.time 0) →
    (generate_random_prime env 0 (KEY_SIZE / 2) inner = some p ∨
      generate_random_prime env 0 (KEY_SIZE / 2) inner = none) →
    redrawLoop env p inner fuel k p = none := by
  induction fuel with
  | zero => intro k _ _; simp [redrawLoop]
  | succ fuel ih =>
    intro k hk hp
    unfold redrawLoop
    rw [if_pos rfl, generate_random_prime_congr env k 0 _ _ (hk k le_rfl (by omega))]
    rcases hp with hp | hp
    · rw [hp]
      simp only
      exact ih (k + 1) (fun j h1 h2 => hk j (by omega) (by omega)) (Or.inl hp)
    · rw [hp]

theorem redrawLoop_exit (env : Env) (p inner : Nat) (fuel : Nat) : ∀ (k q0 q : Nat),
    redrawLoop env p inner fuel k q0 = some q →
    generate_random_prime env 0 (KEY_SIZE / 2) inner = some p →
    q = q0 ∨ ∃ j, k ≤ j ∧ env.time j ≠ env.time 0 ∧
      generate_random_prime env j (KEY_SIZE / 2) inner = some q := by
  induction fuel with
  | zero =>
    intro k q0 q h _
    unfold redrawLoop at h
    split at h
    · exact absurd h (by simp)
    · injection h with h; exact Or.inl h.symm
  | succ fuel ih =>
    intro k q0 q h hp
    unfold redrawLoop at h
    split at h
    · cases hg : generate_random_prime env k (KEY_SIZE / 2) inner with
      | none => rw [hg] at h; exact absurd h (by simp)
      | some q1 =>
        rw [hg] at h
        simp only at h
        right
        rcases ih (k + 1) q1 q h hp with h2 | ⟨j, hj1, hj2, hj3⟩
        · refine ⟨k, le_rfl, ?_, by rw [hg, h2]⟩
          intro htime
          have hne := (redrawLoop_some env p inner fuel (k + 1) q1 q h).1
          rw [generate_random_prime_congr env k 0 _ _ htime, hp] at hg
          injection hg with hg
          exact hne (by rw [h2, hg])
        · exact ⟨j, by omega, hj2, hj3⟩
    · injection h with h; exact Or.inl h.symm

theorem digits_256_length {v : Nat} (hv : 0 < v) :
    (Nat.digits 256 v).length = (mpz_sizeinbase v + 7) / 8 := by
  have hv0 : v ≠ 0 := by omega
  rw [mpz_sizeinbase_eq_size hv0]
  have h1 : v < 256 ^ (Nat.digits 256 v).length := Nat.lt_base_pow_length_digits (by norm_num)
  have h2 : 256 ^ (Nat.digits 256 v).length ≤ 256 * v :=
    Nat.base_pow_length_digits_le 256 v (by norm_num) hv0
  have hpos : 0 < (Nat.digits 256 v).length := by
    rw [List.length_pos]
    exact fun h => hv0 (Nat.digits_eq_nil_iff_eq_zero.mp h)
  have e256 : ∀ k, 256 ^ k = 2 ^ (8 * k) := by
    intro k
    rw [pow_mul]
    norm_num
  have hs1 : Nat.size v ≤ 8 * (Nat.digits 256 v).length := by
    rw [Nat.size_le, ← e256]; exact h1
  have hs2 : 8 * ((Nat.digits 256 v).length - 1) < Nat.size v := by
    rw [Nat.lt_size, ← e256]
    have h3 : 256 ^ (Nat.digits 256 v).length = 256 * 256 ^ ((Nat.digits 256 v).length - 1) := by
      rw [← pow_succ']; congr 1; omega
    rw [h3] at h2
    exact Nat.le_of_mul_le_mul_left h2 (by norm_num)
  omega

theorem map_ofNat_val (l : List Nat) (h : ∀ d ∈ l, d < 256) :
    (l.map (Fin.ofNat : Nat → Char8)).map Fin.val = l := by
  rw [List.map_map]
  conv_rhs => rw [← List.map_id l]
  apply List.map_congr_left
  intro d hd
  simp [Fin.ofNat, Nat.mod_eq_of_lt (h d hd)]

theorem sum_eq_ofDigits (bs : List Char8) :
    ∑ i in Finset.range bs.length, (bs.getD i 0).val * 256 ^ (bs.length - 1 - i) =
      Nat.ofDigits 256 ((bs.map Fin.val).reverse) := by
  induction bs with
  | nil => simp
  | cons c rest ih =>
    rw [List.length_cons, Finset.sum_range_succ']
    have hterm : ∀ i, ((c :: rest).getD (i + 1) 0).val * 256 ^ (rest.length + 1 - 1 - (i + 1)) =
        (rest.getD i 0).val * 256 ^ (rest.length - 1 - i) := by
      intro i
      have : rest.length + 1 - 1 - (i + 1) = rest.length - 1 - i := by omega
      rw [this]
      simp
    simp only [hterm]
    rw [ih]
    simp only [List.getD_cons_zero, Nat.add_sub_cancel, Nat.sub_zero, List.map_cons,
      List.reverse_cons, Nat.ofDigits_append, List.length_reverse, List.length_map,
      Nat.ofDigits_singleton]
    ring

/-- Decoding a positive integer writes its base-256 digits, most significant first, and
the terminator at the start of the destination array. -/
theorem decodeBase256_pos (v : Nat) (string : List Char8) (hv : 0 < v)
    (hcap : (Nat.digits 256 v).length < string.length) (hmax : string.length ≤ SIZE_MOD) :
    decodeBase256 string (v : Int) =
      some (((Nat.digits 256 v).reverse.map Fin.ofNat) ++
        0 :: string.drop ((Nat.digits 256 v).length + 1)) := by
  unfold decodeBase256
  have hk : 0 < (Nat.digits 256 v).length := by
    rw [List.length_pos]
    exact fun h => (Nat.pos_iff_ne_zero.mp hv) (Nat.digits_eq_nil_iff_eq_zero.mp h)
  have hsplit : string = [] ++ string.take (Nat.digits 256 v).length ++
      string.drop (Nat.digits 256 v).length := by simp
  have htake : (string.take (Nat.digits 256 v).length).length = (Nat.digits 256 v).length := by
    rw [List.length_take]; omega
  rw [Int.toNat_natCast]
  conv_lhs => rw [hsplit]
  have hdl := digitLoop_eq v v [] (string.take (Nat.digits 256 v).length)
    (string.drop (Nat.digits 256 v).length) le_rfl htake
  simp only [List.length_nil] at hdl
  rw [hdl]
  simp only [Nat.zero_add, List.nil_append]
  unfold writeAt
  rw [if_pos (by simp; omega)]
  simp only
  have hset : ((Nat.digits 256 v).map (Fin.ofNat : Nat → Char8) ++
      string.drop (Nat.digits 256 v).length).set (Nat.digits 256 v).length 0 =
      [] ++ (Nat.digits 256 v).map (Fin.ofNat : Nat → Char8) ++
        0 :: string.drop ((Nat.digits 256 v).length + 1) := by
    rw [List.set_append_right _ _ (by simp)]
    simp only [List.length_map, Nat.sub_self, List.nil_append]
    congr 1
    have : string.drop (Nat.digits 256 v).length =
        string.get ⟨(Nat.digits 256 v).length, hcap⟩ ::
          string.drop ((Nat.digits 256 v).length + 1) := by
      rw [List.get_eq_getElem]
      exact List.drop_eq_getElem_cons hcap
    rw [this]
    rfl
  rw [hset]
  have hend : ((Nat.digits 256 v).length + SIZE_MOD - 1) % SIZE_MOD =
      ([] : List Char8).length + ((Nat.digits 256 v).map (Fin.ofNat : Nat → Char8)).length - 1 := by
    simp only [List.length_nil, List.length_map, Nat.zero_add]
    have : (Nat.digits 256 v).length + SIZE_MOD - 1 =
        ((Nat.digits 256 v).length - 1) + SIZE_MOD := by omega
    rw [this, Nat.add_mod_right, Nat.mod_eq_of_lt (by omega)]
  rw [hend]
  have := reverseLoop_eq
    (([] : List Char8).length + ((Nat.digits 256 v).map (Fin.ofNat : Nat → Char8)).length - 1)
    ((Nat.digits 256 v).map (Fin.ofNat : Nat → Char8)) []
    (0 :: string.drop ((Nat.digits 256 v).length + 1))
    (by simp only [List.length_nil, List.length_map, Nat.zero_add]; omega)
  simp only [List.length_nil] at this ⊢
  rw [this]
  simp [List.map_reverse]

/-! ## Decimal conversion and key files -/

theorem digitChar_mod (d : Nat) : digitChar d = digitChar (d % 10) := by
  simp [digitChar, Nat.mod_mod]

theorem digitChar_facts : ∀ k, k < 10 → isspace (digitChar k) = false ∧
    isdigit (digitChar k) = true ∧ (digitChar k).val - 48 = k ∧ digitChar k ≠ 0 ∧
    digitChar k ≠ 10 ∧ digitChar k ≠ 45 := by
  decide

/-- The decimal digits of `n`, most significant first. -/
theorem decLoop_eq (fuel : Nat) : ∀ (n : Nat) (acc : List Char8), n < fuel →
    decLoop fuel n acc =
      ((Nat.digits 10 (n / 10)).reverse ++ [n % 10]).map digitChar ++ acc := by
  induction fuel with
  | zero => intro n acc h; omega
  | succ fuel ih =>
    intro n acc h
    unfold decLoop
    by_cases h10 : n < 10
    · rw [if_pos h10]
      have h0 : n / 10 = 0 := by omega
      rw [h0]
      simp only [Nat.digits_zero, List.reverse_nil, List.nil_append, List.map_cons,
        List.map_nil, List.singleton_append]
      rw [← digitChar_mod]
    · rw [if_neg h10, ih (n / 10) _ (by omega)]
      have hpos : 0 < n / 10 := by omega
      have hd : Nat.digits 10 (n / 10) = n / 10 % 10 :: Nat.digits 10 (n / 10 / 10) :=
        Nat.digits_def' (by norm_num) hpos
      rw [hd]
      simp only [List.reverse_cons, List.map_append, List.map_cons, List.map_nil,
        List.append_assoc, List.singleton_append]
      rw [← digitChar_mod n]
      rfl

theorem digitsValue_cons_digit (c : Char8) (rest : List Char8) (acc : Nat)
    (h1 : isspace c = false) (h2 : isdigit c = true) :
    digitsValue (c :: rest) acc = digitsValue rest (acc * 10 + (c.val - 48)) := by
  conv_lhs => unfold digitsValue
  simp [h1, h2]

theorem digitsValue_cons_space (c : Char8) (rest : List Char8) (acc : Nat)
    (h1 : isspace c = true) : digitsValue (c :: rest) acc = digitsValue rest acc := by
  conv_lhs => unfold digitsValue
  simp [h1]

theorem digits10_length_le {m k : Nat} (h : m < 10 ^ k) : (Nat.digits 10 m).length ≤ k := by
  by_cases hm : m = 0
  · subst hm; simp
  · by_contra hcon
    push_neg at hcon
    have h1 := Nat.base_pow_length_digits_le 10 m (by norm_num) hm
    have h2 : 10 ^ (k + 1) ≤ 10 ^ (Nat.digits 10 m).length :=
      Nat.pow_le_pow_right (by norm_num) hcon
    rw [pow_succ] at h2
    omega

theorem digitsValue_digits (be : List Nat) : ∀ (acc : Nat) (rest : List Char8),
    (∀ d ∈ be, d < 10) →
    digitsValue (be.map digitChar ++ rest) acc =
      digitsValue rest (Nat.ofDigits 10 be.reverse + acc * 10 ^ be.length) := by
  induction be with
  | nil => intro acc rest _; simp
  | cons d be ih =>
    intro acc rest h
    have hd := digitChar_facts d (h d (List.mem_cons_self _ _))
    simp only [List.map_cons, List.cons_append]
    rw [digitsValue_cons_digit _ _ _ hd.1 hd.2.1, hd.2.2.1,
      ih _ _ (fun x hx => h x (List.mem_cons_of_mem _ hx))]
    congr 1
    simp only [List.reverse_cons, Nat.ofDigits_append, List.length_reverse,
      Nat.ofDigits_singleton, List.length_cons]
    ring

theorem decimal_digits_lt (n : Nat) : ∀ d ∈ (Nat.digits 10 (n / 10)).reverse ++ [n % 10], d < 10 := by
  intro d hd
  rw [List.mem_append, List.mem_reverse, List.mem_singleton] at hd
  rcases hd with hd | hd
  · exact Nat.digits_lt_base (by norm_num) hd
  · omega

theorem decimal_digits_value (n : Nat) :
    Nat.ofDigits 10 ((Nat.digits 10 (n / 10)).reverse ++ [n % 10]).reverse = n := by
  simp only [List.reverse_append, List.reverse_cons, List.reverse_nil, List.nil_append,
    List.reverse_reverse, List.singleton_append, Nat.ofDigits_cons, Nat.ofDigits_digits]
  omega

theorem decimal_digits_length {n k : Nat} (hk : 0 < k) (h : n < 10 ^ k) :
    ((Nat.digits 10 (n / 10)).reverse ++ [n % 10]).length ≤ k := by
  have h1 : n / 10 < 10 ^ (k - 1) := by
    have : 10 ^ k = 10 ^ (k - 1) * 10 := by
      rw [← pow_succ]; congr 1; omega
    rw [this] at h
    exact Nat.div_lt_of_lt_mul (by rw [mul_comm]; exact h)
  have h2 := digits10_length_le h1
  simp only [List.length_append, List.length_reverse, List.length_singleton]
  omega

/-- The characters of `mpz_get_str`: `-` when negative, then the decimal digits. -/
theorem mpz_get_str_eq (v : Int) :
    mpz_get_str v = (if v < 0 then [45] else []) ++
      ((Nat.digits 10 (v.natAbs / 10)).reverse ++ [v.natAbs % 10]).map digitChar := by
  unfold mpz_get_str
  rw [decLoop_eq _ _ _ (Nat.lt_succ_self _)]
  by_cases h : v < 0
  · simp [h]
  · simp [h]

theorem mpz_get_str_chars (v : Int) : ∀ c ∈ mpz_get_str v, c ≠ 0 ∧ c ≠ 10 := by
  intro c hc
  rw [mpz_get_str_eq, List.mem_append] at hc
  rcases hc with hc | hc
  · by_cases h : v < 0
    · rw [if_pos h, List.mem_singleton] at hc
      subst hc
      decide
    · rw [if_neg h] at hc
      exact absurd hc (List.not_mem_nil _)
  · rw [List.mem_map] at hc
    obtain ⟨d, hd, rfl⟩ := hc
    have := digitChar_facts d (decimal_digits_lt _ d hd)
    exact ⟨this.2.2.2.1, this.2.2.2.2.1⟩

theorem mpz_get_str_length {v : Int} {k : Nat} (hk : 0 < k) (h0 : 0 ≤ v) (h : v < 10 ^ k) :
    (mpz_get_str v).length ≤ k := by
  rw [mpz_get_str_eq, if_neg (by omega)]
  simp only [List.nil_append, List.length_map]
  apply decimal_digits_length hk
  have : ((v.natAbs : Nat) : Int) < ((10 ^ k : Nat) : Int) := by
    rw [Int.natCast_natAbs, abs_of_nonneg h0]
    push_cast
    exact h
  exact_mod_cast this

theorem mpz_set_str_of_dropWhile (str : List Char8) (neg : Bool) (c : Char8)
    (tl : List Char8)
    (hs : (strOf str).dropWhile isspace = (if neg then [45] else []) ++ c :: tl)
    (hc : c ≠ 45) (hdig : isdigit c = true) :
    mpz_set_str str =
      match digitsValue (c :: tl) 0 with
      | none => none
      | some v => some (if neg then -(v : Int) else (v : Int)) := by
  unfold mpz_set_str
  simp only [hs]
  cases neg with
  | true =>
    simp only [if_true, List.singleton_append, List.head?_cons, beq_self_eq_true,
      List.tail_cons, hdig]
  | false =>
    have hnot : (some c == some (45 : Char8)) = false := by
      rw [beq_eq_false_iff_ne]
      intro h
      injection h with h
      exact hc h
    simp only [Bool.false_eq_true, if_false, List.nil_append, List.head?_cons, hnot, hdig,
      if_true]

/-- Parsing what `mpz_get_str` wrote, with or without a newline after it. -/
theorem mpz_set_str_get_str (str : List Char8) (v : Int) (sp : List Char8)
    (hstr : strOf str = mpz_get_str v ++ sp) (hsp : sp = [] ∨ sp = [10]) :
    mpz_set_str str = some v := by
  have hval : ∀ acc, digitsValue sp acc = some acc := by
    intro acc
    rcases hsp with rfl | rfl
    · rfl
    · rfl
  have hbe := decimal_digits_lt v.natAbs
  have hne : ∃ d0 tl, ((Nat.digits 10 (v.natAbs / 10)).reverse ++ [v.natAbs % 10]) = d0 :: tl := by
    cases hl : (Nat.digits 10 (v.natAbs / 10)).reverse ++ [v.natAbs % 10] with
    | nil => simp at hl
    | cons d0 tl => exact ⟨d0, tl, rfl⟩
  obtain ⟨d0, tl, hcons⟩ := hne
  have hd0 := digitChar_facts d0 (hbe d0 (by rw [hcons]; exact List.mem_cons_self _ _))
  have hdv : digitsValue (digitChar d0 :: (tl.map digitChar ++ sp)) 0 = some v.natAbs := by
    have := digitsValue_digits _ 0 sp hbe
    rw [hval, decimal_digits_value, hcons] at this
    simpa using this
  have hs : (strOf str).dropWhile isspace =
      (if decide (v < 0) then [45] else []) ++ digitChar d0 :: (tl.map digitChar ++ sp) := by
    rw [hstr, mpz_get_str_eq, hcons]
    by_cases hneg : v < 0
    · simp only [hneg, if_true, decide_True, List.singleton_append, List.cons_append,
        List.map_cons]
      rw [List.dropWhile_cons_of_neg (by decide)]
      simp
    · simp only [hneg, if_false, decide_False, List.nil_append, List.cons_append,
        List.map_cons, Bool.false_eq_true]
      rw [List.dropWhile_cons_of_neg (by rw [hd0.1]; simp)]
  rw [mpz_set_str_of_dropWhile str _ _ _ hs hd0.2.2.2.2.2 hd0.2.1, hdv]
  simp only
  congr 1
  by_cases hneg : v < 0
  · simp only [hneg, decide_True, if_true]
    rw [← Int.abs_eq_natAbs, abs_of_neg hneg]
    ring
  · simp only [hneg, decide_False, Bool.false_eq_true, if_false]
    rw [← Int.abs_eq_natAbs, abs_of_nonneg (by omega)]

theorem takeLine_newline (A : List Char8) : ∀ (k : Nat) (rest : List Char8),
    (∀ c ∈ A, c ≠ 10) → A.length < k → takeLine k (A ++ 10 :: rest) = A ++ [10] := by
  induction A with
  | nil =>
    intro k rest _ hk
    obtain ⟨k, rfl⟩ : ∃ j, k = j + 1 := ⟨k - 1, by simp at hk; omega⟩
    simp [takeLine]
  | cons a A ih =>
    intro k rest hA hk
    obtain ⟨k, rfl⟩ : ∃ j, k = j + 1 := ⟨k - 1, by simp at hk; omega⟩
    rw [List.cons_append]
    simp only [takeLine]
    rw [if_neg (hA a (List.mem_cons_self _ _)),
      ih k rest (fun c hc => hA c (List.mem_cons_of_mem _ hc)) (by simp at hk; omega)]
    rfl

theorem takeLine_all (A : List Char8) : ∀ k : Nat,
    (∀ c ∈ A, c ≠ 10) → A.length ≤ k → takeLine k A = A := by
  induction A with
  | nil => intro k _ _; cases k <;> rfl
  | cons a A ih =>
    intro k hA hk
    obtain ⟨k, rfl⟩ : ∃ j, k = j + 1 := ⟨k - 1, by simp at hk; omega⟩
    simp only [takeLine]
    rw [if_neg (hA a (List.mem_cons_self _ _)),
      ih k (fun c hc => hA c (List.mem_cons_of_mem _ hc)) (by simp at hk; omega)]

/-- Reading a line that holds a two-character prefix, a number as `mpz_get_str` wrote it
and a newline. -/
theorem readField_line (buffer rest : List Char8) (a b : Char8) (x v : Int)
    (ha : a ≠ 10) (hb : b ≠ 10) (hlen : (mpz_get_str v).length ≤ 508) :
    ∃ buffer1, readField buffer (a :: b :: (mpz_get_str v ++ 10 :: rest)) x =
      (v, buffer1, rest) := by
  have hline : takeLine (KEY_SIZE / 2 - 1) (a :: b :: (mpz_get_str v ++ 10 :: rest)) =
      a :: b :: (mpz_get_str v ++ [10]) := by
    have := takeLine_newline (a :: b :: mpz_get_str v) (KEY_SIZE / 2 - 1) rest
      (by
        intro c hc
        simp only [List.mem_cons] at hc
        rcases hc with rfl | rfl | hc
        · exact ha
        · exact hb
        · exact (mpz_get_str_chars v c hc).2)
      (by
        have : KEY_SIZE / 2 - 1 = 511 := by decide
        simp only [List.length_cons, this]
        omega)
    simpa using this
  refine ⟨a :: b :: (mpz_get_str v ++ [10]) ++
    0 :: buffer.drop ((a :: b :: (mpz_get_str v ++ [10])).length + 1), ?_⟩
  unfold readField fgets
  simp only [hline]
  have hdrop : (a :: b :: (mpz_get_str v ++ [10]) ++
      0 :: buffer.drop ((a :: b :: (mpz_get_str v ++ [10])).length + 1)).drop 2 =
      (mpz_get_str v ++ [10]) ++
        0 :: buffer.drop ((a :: b :: (mpz_get_str v ++ [10])).length + 1) := by
    simp
  have hstr : strOf ((mpz_get_str v ++ [10]) ++
      0 :: buffer.drop ((a :: b :: (mpz_get_str v ++ [10])).length + 1)) =
      mpz_get_str v ++ [10] := by
    apply strOf_append_zero
    intro c hc
    rw [List.mem_append, List.mem_singleton] at hc
    rcases hc with hc | rfl
    · exact (mpz_get_str_chars v c hc).1
    · decide
  rw [hdrop, mpz_set_str_get_str _ v [10] hstr (Or.inr rfl)]
  simp only [Prod.mk.injEq, true_and]
  have : (a :: b :: (mpz_get_str v ++ [10])).length =
      (a :: b :: mpz_get_str v).length + 1 := by simp
  rw [this]
  simp

/-- Reading a last line that holds a two-character prefix and a number as `mpz_get_str`
wrote it. -/
theorem readField_last (buffer : List Char8) (a b : Char8) (x v : Int)
    (ha : a ≠ 10) (hb : b ≠ 10) (hlen : (mpz_get_str v).length ≤ 509) :
    (readField buffer (a :: b :: mpz_get_str v) x).1 = v := by
  have hline : takeLine (KEY_SIZE / 2 - 1) (a :: b :: mpz_get_str v) =
      a :: b :: mpz_get_str v := by
    apply takeLine_all
    · intro c hc
      simp only [List.mem_cons] at hc
      rcases hc with rfl | rfl | hc
      · exact ha
      · exact hb
      · exact (mpz_get_str_chars v c hc).2
    · have : KEY_SIZE / 2 - 1 = 511 := by decide
      simp only [List.length_cons, this]
      omega
  unfold readField fgets
  simp only [hline]
  have hdrop : (a :: b :: mpz_get_str v ++
      0 :: buffer.drop ((a :: b :: mpz_get_str v).length + 1)).drop 2 =
      mpz_get_str v ++ 0 :: buffer.drop ((a :: b :: mpz_get_str v).length + 1) := by
    simp
  have hstr : strOf (mpz_get_str v ++
      0 :: buffer.drop ((a :: b :: mpz_get_str v).length + 1)) = mpz_get_str v ++ [] := by
    rw [List.append_nil]
    exact strOf_append_zero (fun c hc => (mpz_get_str_chars v c hc).1) _
  rw [hdrop, mpz_set_str_get_str _ v [] hstr (Or.inl rfl)]

/-- The reader of `encrypt_message` and `decrypt_message` gets back the two numbers of a
key file whose lines fit the line buffer. -/
theorem readKey_keyFile (buffer : List Char8) (letter : Char8) (n x : Int)
    (hl : letter ≠ 10) (hn : (mpz_get_str n).length ≤ 508)
    (hx : (mpz_get_str x).length ≤ 509) :
    readKey buffer (keyFile letter (mpz_get_str n) (mpz_get_str x)) = (n, x) := by
  have hfile : keyFile letter (mpz_get_str n) (mpz_get_str x) =
      110 :: 58 :: (mpz_get_str n ++ 10 :: (letter :: 58 :: mpz_get_str x)) := by
    simp [keyFile]
  obtain ⟨buffer1, h1⟩ := readField_line buffer (letter :: 58 :: mpz_get_str x) 110 58 0 n
    (by decide) (by decide) hn
  unfold readKey
  simp only [hfile, h1]
  rw [readField_last buffer1 letter 58 0 x hl (by decide) hx]

theorem mpz_nextprime_lt_pow {a b : Nat} (hb : 0 < b) (ha : a < 2 ^ b) :
    mpz_nextprime a < 2 ^ (b + 1) := by
  have h2 : 2 ^ (b + 1) = 2 * 2 ^ b := pow_succ' 2 b
  have hge : 2 ≤ 2 ^ b := by
    calc 2 = 2 ^ 1 := by norm_num
      _ ≤ 2 ^ b := Nat.pow_le_pow_right (by norm_num) hb
  by_cases h0 : a = 0
  · subst h0
    have : mpz_nextprime 0 = 2 :=
      mpz_nextprime_eq Nat.prime_two (by norm_num) (fun k h1 h2 => by
        have : k = 1 := by omega
        subst this
        exact Nat.not_prime_one)
    omega
  · have := mpz_nextprime_le_two_mul h0
    omega

theorem generate_random_prime_lt {env : Env} {k bit_size fuel r : Nat} (hb : 0 < bit_size)
    (h : generate_random_prime env k bit_size fuel = some r) : r < 2 ^ (bit_size + 1) := by
  obtain ⟨j, hj, _⟩ := primeLoop_some _ _ _ _ _ h
  rw [hj]
  exact mpz_nextprime_lt_pow hb (Nat.mod_lt _ (by positivity))

/-- The primes of a run of `generate_rsa_keys` that ends have at most `KEY_SIZE / 2 + 1`
bits. -/
theorem generate_rsa_keys_lt {env : Env} {fuel : Nat} {w : World} {keys_path : List Char8}
    {r : KeyGen} (h : generate_rsa_keys env fuel w keys_path = some r) :
    r.p < 2 ^ (KEY_SIZE / 2 + 1) ∧ r.q < 2 ^ (KEY_SIZE / 2 + 1) := by
  unfold generate_rsa_keys at h
  cases hp : generate_random_prime env 0 (KEY_SIZE / 2) fuel with
  | none => rw [hp] at h; exact absurd h (by simp)
  | some p =>
    rw [hp] at h
    simp only at h
    cases hq0 : generate_random_prime env 1 (KEY_SIZE / 2) fuel with
    | none => rw [hq0] at h; exact absurd h (by simp)
    | some q0 =>
      rw [hq0] at h
      simp only at h
      cases hq : redrawLoop env p fuel fuel 2 q0 with
      | none => rw [hq] at h; exact absurd h (by simp)
      | some q =>
        rw [hq] at h
        simp only at h
        injection h with h
        have hrp : r.p = p := by rw [← h]; rfl
        have hrq : r.q = q := by rw [← h]; rfl
        rw [hrp, hrq]
        refine ⟨generate_random_prime_lt (by decide) hp, ?_⟩
        rcases (redrawLoop_some env p fuel fuel 2 q0 q hq).2 with h2 | ⟨j, h2⟩
        · rw [h2]; exact generate_random_prime_lt (by decide) hq0
        · exact generate_random_prime_lt (by decide) h2

theorem two_pow_1026_lt : (2 : Int) ^ ((KEY_SIZE / 2 + 1) + (KEY_SIZE / 2 + 1)) < 10 ^ 309 := by
  have : (KEY_SIZE / 2 + 1) + (KEY_SIZE / 2 + 1) = 1026 := by decide
  rw [this]
  norm_num

/-- The modulus of a run of `generate_rsa_keys` that ends is below `10 ^ 309`. -/
theorem generate_rsa_keys_n_lt {env : Env} {fuel : Nat} {w : World} {keys_path : List Char8}
    {r : KeyGen} (h : generate_rsa_keys env fuel w keys_path = some r) :
    0 ≤ r.key.n ∧ r.key.n < 10 ^ 309 := by
  obtain ⟨_, _, _, _, _, hr⟩ := generate_rsa_keys_some h
  have hlt := generate_rsa_keys_lt h
  have hn : r.key.n = (r.p : Int) * (r.q : Int) := by rw [hr]; rfl
  have hp : (r.p : Int) < 2 ^ (KEY_SIZE / 2 + 1) := by exact_mod_cast hlt.1
  have hq : (r.q : Int) < 2 ^ (KEY_SIZE / 2 + 1) := by exact_mod_cast hlt.2
  have hp0 : (0 : Int) ≤ r.p := Int.natCast_nonneg _
  have hq0 : (0 : Int) ≤ r.q := Int.natCast_nonneg _
  refine ⟨by rw [hn]; exact mul_nonneg hp0 hq0, ?_⟩
  rw [hn]
  calc (r.p : Int) * (r.q : Int)
      < 2 ^ (KEY_SIZE / 2 + 1) * 2 ^ (KEY_SIZE / 2 + 1) :=
        mul_lt_mul'' hp hq hp0 hq0
    _ = 2 ^ ((KEY_SIZE / 2 + 1) + (KEY_SIZE / 2 + 1)) := by rw [← pow_add]
    _ < 10 ^ 309 := two_pow_1026_lt

theorem envSameSecond_draw_P (k : Nat) (hk : k / 2 = 0) :
    envSameSecond.urandom (envSameSecond.time k) 0 % 2 ^ (KEY_SIZE / 2) = primeP - 1 := by
  have h : envSameSecond.urandom (envSameSecond.time k) 0 = primeP - 1 := by
    show (if k / 2 = 0 then primeP - 1 else primeQ - 1) = primeP - 1
    rw [if_pos hk]
  rw [h]
  exact Nat.mod_eq_of_lt (lt_of_lt_of_le (lt_two_pow_of_size rfl)
    (Nat.pow_le_pow_right (by norm_num) size_primeP_pred))

theorem envSameSecond_draw_Q (k : Nat) (hk : k / 2 ≠ 0) :
    envSameSecond.urandom (envSameSecond.time k) 0 % 2 ^ (KEY_SIZE / 2) = primeQ - 1 := by
  have h : envSameSecond.urandom (envSameSecond.time k) 0 = primeQ - 1 := by
    show (if k / 2 = 0 then primeP - 1 else primeQ - 1) = primeQ - 1
    rw [if_neg hk]
  rw [h]
  exact Nat.mod_eq_of_lt (lt_of_lt_of_le (lt_two_pow_of_size rfl)
    (Nat.pow_le_pow_right (by norm_num) size_primeQ_pred))

/-- Two first draws that land on the same prime `p` and a third that lands on another
prime `q` make the run end with the key of `p` and `q`. -/
theorem generate_rsa_keys_of_redraw {env : Env} {fuel : Nat} {w : World}
    {keys_path : List Char8} {p q : Nat} (hp : p.Prime) (hq : q.Prime) (hne : p ≠ q)
    (hd0 : env.urandom (env.time 0) 0 % 2 ^ (KEY_SIZE / 2) = p - 1)
    (hd1 : env.urandom (env.time 1) 0 % 2 ^ (KEY_SIZE / 2) = p - 1)
    (hd2 : env.urandom (env.time 2) 0 % 2 ^ (KEY_SIZE / 2) = q - 1)
    (hsp : KEY_SIZE / 2 ≤ mpz_sizeinbase p) (hsq : KEY_SIZE / 2 ≤ mpz_sizeinbase q) :
    generate_rsa_keys env (fuel + 2) w keys_path = some (writeKeys env w keys_path p q) := by
  unfold generate_rsa_keys
  rw [generate_random_prime_of_draw hp hd0 hsp, generate_random_prime_of_draw hp hd1 hsp]
  simp only
  unfold redrawLoop
  rw [if_pos rfl, generate_random_prime_of_draw hq hd2 hsq]
  simp only
  unfold redrawLoop
  rw [if_neg hne]

/-- The run in which the calls for `p` and for the first `q` read the same clock value:
both give `primeP`, and the third call, a second later, gives `primeQ`. -/
theorem run_same_second (fuel : Nat) (w : World) (keys_path : List Char8) :
    generate_rsa_keys envSameSecond (fuel + 2) w keys_path =
      some (writeKeys envSameSecond w keys_path primeP primeQ) :=
  generate_rsa_keys_of_redraw primeP_prime primeQ_prime (by decide)
    (envSameSecond_draw_P 0 (by norm_num)) (envSameSecond_draw_P 1 (by norm_num))
    (envSameSecond_draw_Q 2 (by norm_num)) (le_of_eq primeP_size.symm)
    (le_of_eq primeQ_size.symm)

/-- What `mpz_get_str` writes for a non-negative integer: `0` for zero, else the decimal
digits, most significant first, as ASCII characters. -/
theorem mpz_get_str_of_nonneg (v : Int) (h : 0 ≤ v) :
    mpz_get_str v =
      if v = 0 then [48]
      else (Nat.digits 10 v.toNat).reverse.map (fun d => (Fin.ofNat (48 + d) : Char8)) := by
  obtain ⟨n, rfl⟩ := Int.eq_ofNat_of_zero_le h
  rw [mpz_get_str_eq, if_neg (by omega)]
  simp only [Int.natAbs_ofNat, Int.toNat_ofNat, List.nil_append]
  by_cases hn : n = 0
  · subst hn
    simp only [Nat.zero_div, Nat.digits_zero, List.reverse_nil, List.nil_append, Nat.zero_mod,
      List.map_cons, List.map_nil, Nat.cast_zero, if_true]
    rfl
  · rw [if_neg (by exact_mod_cast hn)]
    have hd : Nat.digits 10 n = n % 10 :: Nat.digits 10 (n / 10) :=
      Nat.digits_def' (by norm_num) (Nat.pos_of_ne_zero hn)
    rw [hd, List.reverse_cons]
    apply List.map_congr_left
    intro d hd2
    have hlt : d < 10 := by
      rw [List.mem_append, List.mem_reverse, List.mem_singleton] at hd2
      rcases hd2 with h1 | h1
      · exact Nat.digits_lt_base (by norm_num) h1
      · rw [h1]; exact Nat.mod_lt _ (by norm_num)
    unfold digitChar
    rw [Nat.mod_eq_of_lt hlt]

theorem mpz_nextprime_3 : mpz_nextprime 3 = 5 := by
  apply mpz_nextprime_eq (by norm_num) (by norm_num)
  intro k h1 h2
  interval_cases k
  norm_num

/-- The loop of `generate_random_prime` ends in the first round whose candidate is not
too short, with that candidate. -/
theorem primeLoop_iteration (draw : Nat → Nat) (bit_size : Nat) :
    ∀ (j fuel i : Nat), j < fuel →
      (∀ t, t < j → mpz_sizeinbase (mpz_nextprime (draw (i + t) % 2 ^ bit_size)) < bit_size) →
      bit_size ≤ mpz_sizeinbase (mpz_nextprime (draw (i + j) % 2 ^ bit_size)) →
      primeLoop draw bit_size fuel i = some (mpz_nextprime (draw (i + j) % 2 ^ bit_size)) := by
  intro j
  induction j with
  | zero =>
    intro fuel i hf _ hsz
    obtain ⟨f, rfl⟩ : ∃ f, fuel = f + 1 := ⟨fuel - 1, by omega⟩
    unfold primeLoop
    simp only
    rw [Nat.add_zero] at hsz
    rw [if_neg (by omega)]
    rfl
  | succ j ih =>
    intro fuel i hf hshort hsz
    obtain ⟨f, rfl⟩ : ∃ f, fuel = f + 1 := ⟨fuel - 1, by omega⟩
    unfold primeLoop
    simp only
    have h0 := hshort 0 (by omega)
    rw [Nat.add_zero] at h0
    rw [if_pos h0]
    have e : ∀ t, i + 1 + t = i + (t + 1) := fun t => by omega
    have := ih f (i + 1) (by omega)
      (fun t ht => by rw [e]; exact hshort (t + 1) (by omega))
      (by rw [e]; exact hsz)
    rw [this, e]

/-- A result of the loop of `generate_random_prime` is the candidate of one of its rounds,
and the candidates of the rounds before were too short. -/
theorem primeLoop_some_iteration (draw : Nat → Nat) (bit_size : Nat) (fuel : Nat) :
    ∀ (i : Nat) (r : Nat), primeLoop draw bit_size fuel i = some r →
      ∃ j, j < fuel ∧ r = mpz_nextprime (draw (i + j) % 2 ^ bit_size) ∧
        ∀ t, t < j →
          mpz_sizeinbase (mpz_nextprime (draw (i + t) % 2 ^ bit_size)) < bit_size := by
  induction fuel with
  | zero => intro i r h; simp [primeLoop] at h
  | succ fuel ih =>
    intro i r h
    unfold primeLoop at h
    simp only at h
    split at h
    · rename_i hsz
      obtain ⟨j, hj, hr, hshort⟩ := ih _ _ h
      have e : ∀ t, i + 1 + t = i + (t + 1) := fun t => by omega
      refine ⟨j + 1, by omega, by rw [hr, e], ?_⟩
      intro t ht
      rcases Nat.eq_zero_or_pos t with h0 | h0
      · subst h0; exact hsz
      · have := hshort (t - 1) (by omega)
        rw [e, Nat.sub_add_cancel h0] at this
        exact this
    · injection h with h
      exact ⟨0, by omega, h.symm, fun t ht => absurd ht (by omega)⟩

/-! ## The claims -/

/-- C1. RSA round trip at the integer level: for distinct primes `p`, `q`, exponents with
`e * d ≡ 1` modulo `(p - 1) * (q - 1)` and every message `m < p * q` (coprime to the
modulus or not), the `mpz_powm` of `encrypt_message` succeeds with some `c`, and the
`mpz_powm` of `decrypt_message` applied to `c` returns `m`. -/
theorem rsa_round_trip (p q e d m : Nat) (hp : p.Prime) (hq : q.Prime) (hpq : p ≠ q)
    (hed : e * d ≡ 1 [MOD (p - 1) * (q - 1)]) (hm : m < p * q) :
    ∃ c : Int, mpz_powm (m : Int) (e : Int) ((p * q : Nat) : Int) = some c ∧
      mpz_powm c (d : Int) ((p * q : Nat) : Int) = some (m : Int) := by
  have hn : 0 < p * q := Nat.mul_pos hp.pos hq.pos
  refine ⟨((m ^ e % (p * q) : Nat) : Int), mpz_powm_natCast m e (p * q) hn, ?_⟩
  rw [mpz_powm_natCast (m ^ e % (p * q)) d (p * q) hn]
  have h1 : (m ^ e % (p * q)) ^ d % (p * q) = m := by
    rw [← Nat.pow_mod, ← pow_mul]
    have := rsa_pow_modEq hp hq hpq hed m
    unfold Nat.ModEq at this
    rw [this]
    exact Nat.mod_eq_of_lt hm
  rw [h1]

/-- Witness for C1: the key `p = 61`, `q = 53`, `e = 17`, `d = 2753` and the message
`122 = 2 * 61`, which shares a factor with the modulus. -/
theorem rsa_round_trip_witness :
    Nat.Prime 61 ∧ Nat.Prime 53 ∧ (61 : Nat) ≠ 53 ∧ 17 * 2753 ≡ 1 [MOD (61 - 1) * (53 - 1)] ∧
      122 < 61 * 53 ∧
      ∃ c : Int, mpz_powm ((122 : Nat) : Int) ((17 : Nat) : Int) ((61 * 53 : Nat) : Int) = some c ∧
        mpz_powm c ((2753 : Nat) : Int) ((61 * 53 : Nat) : Int) = some ((122 : Nat) : Int) :=
  ⟨by norm_num, by norm_num, by decide, by decide, by decide,
    rsa_round_trip 61 53 17 2753 122 (by norm_num) (by norm_num) (by decide) (by decide)
      (by decide)⟩

/-- C2, as stated, fails: the three bytes `0x41 0x00 0x42` encode to `65`, since
`encodeBase256` stops at the zero byte, and `65` decodes to the one-byte string `0x41`. -/
theorem zero_byte_breaks_round_trip :
    decodeBase256 [1, 2, 3, 4] (encodeBase256 [65, 0, 66]) = some [65, 0, 3, 4] ∧
      (decodeBase256 [1, 2, 3, 4] (encodeBase256 [65, 0, 66])).map strOf ≠ some [65, 0, 66] := by
  decide

/-- C2, amended. Codec round trip: for every non-empty byte string `s` without a zero
byte, decoded into an array with room for `s` and its terminator, the string that
`decodeBase256` leaves for the encoding of `s` is `s`. -/
theorem codec_round_trip (s string : List Char8) (hne : s ≠ []) (hnz : ∀ c ∈ s, c ≠ 0)
    (hcap : s.length < string.length) (hmax : string.length ≤ SIZE_MOD) :
    (decodeBase256 string (encodeBase256 s)).map strOf = some s := by
  have hs : strOf s = s := strOf_eq_self hnz
  rw [decodeBase256_encodeBase256 s string (by rw [hs]; exact hne) (by rw [hs]; exact hcap) hmax,
    hs, Option.map_some', strOf_append_zero hnz]

/-- Witness for the amended C2: the string `AB` decoded into an array of four bytes. -/
theorem codec_round_trip_witness :
    ([65, 66] : List Char8) ≠ [] ∧ (∀ c ∈ ([65, 66] : List Char8), c ≠ 0) ∧
      ([65, 66] : List Char8).length < ([1, 2, 3, 4] : List Char8).length ∧
      ([1, 2, 3, 4] : List Char8).length ≤ SIZE_MOD ∧
      (decodeBase256 [1, 2, 3, 4] (encodeBase256 [65, 66])).map strOf = some [65, 66] :=
  ⟨by decide, by simp, by decide, by decide,
    codec_round_trip [65, 66] [1, 2, 3, 4] (by decide) (by simp) (by decide) (by decide)⟩

/-- C3. `encodeBase256` is the big-endian base-256 value of its input: with `b_0 … b_{k-1}`
the bytes before the terminator, the result is the sum of `b_i * 256 ^ (k - 1 - i)`; the
empty string encodes to `0` and `AB` to `16706`. -/
theorem encodeBase256_big_endian :
    (∀ string : List Char8, encodeBase256 string =
      ∑ i in Finset.range (strOf string).length,
        ((strOf string).getD i 0).val * 256 ^ ((strOf string).length - 1 - i)) ∧
      encodeBase256 [] = 0 ∧ encodeBase256 [65, 66] = 16706 := by
  refine ⟨fun string => ?_, by decide, by decide⟩
  unfold encodeBase256
  rw [encodeLoop_eq_sum, zero_mul, zero_add]

/-- C4, at failing inputs: with `bit_size = 8` and a first draw of `251`, the next prime
is `257`, whose nine bits are not fewer than eight, so the loop ends at once and
`generate_random_prime` returns a prime of `bit_size + 1` bits; and with the `bit_size`
that `generate_rsa_keys` passes, `KEY_SIZE / 2`, a first draw of `2 ^ (KEY_SIZE / 2) - 1`
makes it return a prime of `KEY_SIZE / 2 + 1` bits. -/
theorem generate_random_prime_overshoot :
    (generate_random_prime (envDraws 251 251) 0 8 1 = some 257 ∧ mpz_sizeinbase 257 = 9) ∧
      ∃ r, generate_random_prime (envDraws (2 ^ (KEY_SIZE / 2) - 1) 0) 0 (KEY_SIZE / 2) 1 =
          some r ∧ r.Prime ∧ mpz_sizeinbase r = KEY_SIZE / 2 + 1 := by
  refine ⟨⟨?_, by decide⟩, ?_⟩
  · unfold generate_random_prime primeLoop
    have hdraw : (envDraws 251 251).urandom ((envDraws 251 251).time 0) 0 % 2 ^ 8 = 251 := by
      decide
    simp only
    rw [hdraw, mpz_nextprime_251, if_neg (by decide)]
  · exact generate_random_prime_all_ones (by decide)
      (envDraws_first _ _ (le_of_eq (mpz_sizeinbase_all_ones (by decide))))

/-- C5. Key derivation: a run of `generate_rsa_keys` that drew `p` and `q` has `n = p * q`
and `e = 65537`; whenever `gcd(65537, phi) = 1` for `phi = (p - 1) * (q - 1)`, its `d` is
what `mpz_invert` returns for `e` and `phi`, with `0 < d < phi` and `e * d % phi = 1`;
and the key files it could open hold `n` with `e`, and `n` with `d`, in decimal. -/
theorem generate_rsa_keys_key (env : Env) (fuel : Nat) (w : World) (keys_path : List Char8)
    (r : KeyGen) (h : generate_rsa_keys env fuel w keys_path = some r) :
    r.key.n = (r.p : Int) * (r.q : Int) ∧ r.key.e = 65537 ∧
      (Int.gcd 65537 (((r.p : Int) - 1) * ((r.q : Int) - 1)) = 1 →
        mpz_invert r.key.e (((r.p : Int) - 1) * ((r.q : Int) - 1)) = some r.key.d ∧
        0 < r.key.d ∧ r.key.d < ((r.p : Int) - 1) * ((r.q : Int) - 1) ∧
        r.key.e * r.key.d % (((r.p : Int) - 1) * ((r.q : Int) - 1)) = 1) ∧
      (w.writable (public_key_path keys_path) = true →
        public_key_path keys_path ≠ private_key_path keys_path →
        r.world.files (public_key_path keys_path) =
          some (keyFile 101 (mpz_get_str r.key.n) (mpz_get_str r.key.e))) ∧
      (w.writable (private_key_path keys_path) = true →
        r.world.files (private_key_path keys_path) =
          some (keyFile 100 (mpz_get_str r.key.n) (mpz_get_str r.key.d))) := by
  obtain ⟨hp, hq, hne, _, _, hr⟩ := generate_rsa_keys_some h
  have hphi := phi_ge_two hp hq hne
  refine ⟨by rw [hr]; rfl, by rw [hr]; rfl, ?_, ?_, ?_⟩
  · intro hg
    obtain ⟨d, hd⟩ := mpz_invert_of_gcd (by omega) hg
    have hkd : r.key.d = d := by
      rw [hr, writeKeys_key_d, hd]
    have hke : r.key.e = 65537 := by rw [hr]; rfl
    have hs := mpz_invert_some hd
    rw [abs_of_nonneg (by omega)] at hs
    have hmod : 65537 * d % (((r.p : Int) - 1) * ((r.q : Int) - 1)) = 1 := by
      have := hs.2.2
      unfold Int.ModEq at this
      rw [this]
      exact Int.emod_eq_of_lt (by norm_num) (by omega)
    rw [hkd, hke]
    refine ⟨hd, ?_, hs.2.1, hmod⟩
    rcases lt_or_eq_of_le hs.1 with h0 | h0
    · exact h0
    · rw [← h0] at hmod
      simp at hmod
  · intro hw hpp
    rw [hr]
    exact writeKeys_public_file env w keys_path r.p r.q hw hpp
  · intro hw
    rw [hr]
    exact writeKeys_private_file env w keys_path r.p r.q hw

/-- Witness for C5: the run that draws the 512-bit primes `primeP` and `primeQ`, for which
`65537` is coprime to `phi`. -/
theorem generate_rsa_keys_key_witness :
    generate_rsa_keys (envDraws (primeP - 1) (primeQ - 1)) 1 emptyWorld [] =
        some (writeKeys (envDraws (primeP - 1) (primeQ - 1)) emptyWorld [] primeP primeQ) ∧
      Int.gcd 65537 (((primeP : Int) - 1) * ((primeQ : Int) - 1)) = 1 ∧
      0 < (writeKeys (envDraws (primeP - 1) (primeQ - 1)) emptyWorld [] primeP primeQ).key.d ∧
      (writeKeys (envDraws (primeP - 1) (primeQ - 1)) emptyWorld [] primeP primeQ).key.e *
        (writeKeys (envDraws (primeP - 1) (primeQ - 1)) emptyWorld [] primeP primeQ).key.d %
          (((primeP : Int) - 1) * ((primeQ : Int) - 1)) = 1 :=
  have hg : Int.gcd 65537 (((primeP : Int) - 1) * ((primeQ : Int) - 1)) = 1 := by decide
  have hk := (generate_rsa_keys_key (envDraws (primeP - 1) (primeQ - 1)) 1 emptyWorld []
    (writeKeys (envDraws (primeP - 1) (primeQ - 1)) emptyWorld [] primeP primeQ)
    (run_P_Q emptyWorld [])).2.2.1 hg
  ⟨run_P_Q emptyWorld [], hg, hk.2.1, hk.2.2.2⟩

/-- C6. Encryption result: for a message that passes the size check and a key file from
which `n > 0` and `e` are read, with the ciphertext file open for writing, every run of
`encrypt_message` that returns has written the ciphertext file as `c:` followed by the
decimal numeral of an integer `c` in `[0, n)`, the digit `0` alone for zero and else the
base-10 digits of `c`, most significant first, in ASCII, where `c` is
`encodeBase256(message) ^ e % n` (for a negative `e`, its inverse power:
`c * encodeBase256(message) ^ (-e) % n = 1 % n`); and for `e ≥ 0` the run returns, having
written exactly that. -/
theorem encrypt_message_ciphertext (env : Env) (w : World)
    (public_key_path message_str pub_file : List Char8) (n e : Int)
    (hsize : mpz_sizeinbase (encodeBase256 message_str) ≤ KEY_SIZE)
    (hfile : w.files (strOf public_key_path) = some pub_file)
    (hkey : readKey (uninit env (KEY_SIZE / 2)) pub_file = (n, e))
    (hn : 0 < n) (hw : w.writable ciphertext_file = true) :
    (0 ≤ e → encrypt_message env w public_key_path message_str =
      some ⟨w.write ciphertext_file
        ([99, 58] ++
          if (encodeBase256 message_str : Int) ^ e.toNat % n = 0 then [48]
          else (Nat.digits 10 ((encodeBase256 message_str : Int) ^ e.toNat % n).toNat).reverse.map
            (fun d => (Fin.ofNat (48 + d) : Char8))),
        [Out.encrypted]⟩) ∧
      (∀ r, encrypt_message env w public_key_path message_str = some r →
        ∃ c : Int, 0 ≤ c ∧ c < n ∧
          r.world.files ciphertext_file =
            some ([99, 58] ++
              if c = 0 then [48]
              else (Nat.digits 10 c.toNat).reverse.map
                (fun d => (Fin.ofNat (48 + d) : Char8))) ∧
          r.out = [Out.encrypted] ∧
          (0 ≤ e → c = (encodeBase256 message_str : Int) ^ e.toNat % n) ∧
          (e < 0 → c * (encodeBase256 message_str : Int) ^ (-e).toNat % n = 1 % n)) := by
  have hacc := encrypt_message_accept env w public_key_path message_str pub_file hsize hfile
  rw [hkey] at hacc
  simp only at hacc
  constructor
  · intro he
    rw [hacc, mpz_powm_of_nonneg _ _ _ (ne_of_gt hn) he]
    simp only
    rw [if_pos hw, mpz_get_str_of_nonneg _ (Int.emod_nonneg _ (ne_of_gt hn))]
  · intro r hr
    rw [hacc] at hr
    cases hp : mpz_powm (encodeBase256 message_str : Int) e n with
    | none => rw [hp] at hr; exact absurd hr (by simp)
    | some c =>
      rw [hp] at hr
      simp only at hr
      rw [if_pos hw] at hr
      injection hr with hr
      have hs := mpz_powm_some hp
      rw [abs_of_pos hn] at hs
      refine ⟨c, hs.2.1, hs.2.2.1, ?_, ?_, hs.2.2.2.1, hs.2.2.2.2⟩
      · rw [← hr, ← mpz_get_str_of_nonneg c hs.2.1]
        simp [World.write]
      · rw [← hr]

/-- Witness for C6: with the key file `n:3233`, `e:17` and the message `A` the file
written is `c:2790`, and `2790 = 65 ^ 17 % 3233`. -/
theorem encrypt_message_ciphertext_witness :
    mpz_sizeinbase (encodeBase256 [65]) ≤ KEY_SIZE ∧
      keyWorld.files (strOf [107]) = some [110, 58, 51, 50, 51, 51, 10, 101, 58, 49, 55] ∧
      readKey (uninit (envDraws 0 0) (KEY_SIZE / 2))
        [110, 58, 51, 50, 51, 51, 10, 101, 58, 49, 55] = (3233, 17) ∧
      (0 : Int) < 3233 ∧
      keyWorld.writable ciphertext_file = true ∧
      (65 : Int) ^ 17 % 3233 = 2790 ∧
      encrypt_message (envDraws 0 0) keyWorld [107] [65] =
        some ⟨keyWorld.write ciphertext_file [99, 58, 50, 55, 57, 48], [Out.encrypted]⟩ := by
  have h := (encrypt_message_ciphertext (envDraws 0 0) keyWorld [107] [65]
    [110, 58, 51, 50, 51, 51, 10, 101, 58, 49, 55] 3233 17 (by decide) (by decide)
    (by decide) (by decide) rfl).1 (by decide)
  have hc : (encodeBase256 [65] : Int) ^ (17 : Int).toNat % 3233 = 2790 := by decide
  rw [hc] at h
  have hd : Nat.digits 10 (2790 : Int).toNat = [0, 9, 7, 2] := by
    rw [show (2790 : Int).toNat = 2790 from rfl]
    norm_num
  rw [hd, if_neg (by decide)] at h
  exact ⟨by decide, by decide, by decide, by decide, rfl, by decide, h⟩

/-- C7. Message size check of `encrypt_message`: the too-large error is printed exactly
when the bit length of the encoded message is greater than `KEY_SIZE`; in that case the
call returns with the file system as it was and that error, carrying the bit length, as
its only output. -/
theorem encrypt_message_size_check (env : Env) (w : World)
    (public_key_path message_str : List Char8) :
    (KEY_SIZE < mpz_sizeinbase (encodeBase256 message_str) ↔
      ∃ r bits, encrypt_message env w public_key_path message_str = some r ∧
        Out.errMessageTooLarge bits ∈ r.out) ∧
      (KEY_SIZE < mpz_sizeinbase (encodeBase256 message_str) →
        encrypt_message env w public_key_path message_str =
          some ⟨w, [Out.errMessageTooLarge (mpz_sizeinbase (encodeBase256 message_str))]⟩) := by
  have hrej : KEY_SIZE < mpz_sizeinbase (encodeBase256 message_str) →
      encrypt_message env w public_key_path message_str =
        some ⟨w, [Out.errMessageTooLarge (mpz_sizeinbase (encodeBase256 message_str))]⟩ := by
    intro h
    unfold encrypt_message
    simp only
    rw [if_pos h]
  refine ⟨⟨fun h => ⟨_, mpz_sizeinbase (encodeBase256 message_str), hrej h,
    List.mem_singleton.mpr rfl⟩, ?_⟩, hrej⟩
  rintro ⟨r, bits, hr, hmem⟩
  by_contra hle
  unfold encrypt_message at hr
  simp only at hr
  rw [if_neg hle] at hr
  cases hf : w.files (strOf public_key_path) with
  | none =>
    rw [hf] at hr
    injection hr with hr
    rw [← hr] at hmem
    simp at hmem
  | some pub_file =>
    rw [hf] at hr
    simp only at hr
    cases hp : mpz_powm (encodeBase256 message_str : Int)
        (readKey (uninit env (KEY_SIZE / 2)) pub_file).2
        (readKey (uninit env (KEY_SIZE / 2)) pub_file).1 with
    | none => rw [hp] at hr; exact absurd hr (by simp)
    | some c =>
      rw [hp] at hr
      simp only at hr
      by_cases hw : w.writable ciphertext_file = true
      · rw [if_pos hw] at hr
        injection hr with hr
        rw [← hr] at hmem
        simp at hmem
      · rw [if_neg hw] at hr
        injection hr with hr
        rw [← hr] at hmem
        simp at hmem

set_option maxRecDepth 100000 in
/-- C8, at the failing input: in the run that draws `primeR` and `primeP`, where `65537`
divides `primeR - 1`, `mpz_invert` finds no inverse of `e` modulo
`phi = (primeR - 1) * (primeP - 1)`; the run ends all the same, prints the success line
alone and leaves both key files, the private one with `d = 0`, which is no inverse of
`e`.  So it is in every run whose primes have `gcd(65537, phi) ≠ 1`: no inverse is found,
the `d` of the key is what the variable held before, and the success line is printed
after the file errors, if any, with no line for the missing inverse. -/
theorem not_coprime_run_emits_keys :
    Int.gcd 65537 (((primeR : Int) - 1) * ((primeP : Int) - 1)) ≠ 1 ∧
      mpz_invert 65537 (((primeR : Int) - 1) * ((primeP : Int) - 1)) = none ∧
      generate_rsa_keys (envDraws (primeR - 1) (primeP - 1)) 1 emptyWorld [] =
        some (writeKeys (envDraws (primeR - 1) (primeP - 1)) emptyWorld [] primeR primeP) ∧
      (writeKeys (envDraws (primeR - 1) (primeP - 1)) emptyWorld [] primeR primeP).out =
        [Out.keysGenerated] ∧
      ((writeKeys (envDraws (primeR - 1) (primeP - 1)) emptyWorld [] primeR primeP).world.files
        (public_key_path [])).isSome = true ∧
      ((writeKeys (envDraws (primeR - 1) (primeP - 1)) emptyWorld [] primeR primeP).world.files
        (private_key_path [])).isSome = true ∧
      (writeKeys (envDraws (primeR - 1) (primeP - 1)) emptyWorld [] primeR primeP).key.d = 0 ∧
      65537 * (writeKeys (envDraws (primeR - 1) (primeP - 1)) emptyWorld [] primeR primeP).key.d %
        (((primeR : Int) - 1) * ((primeP : Int) - 1)) ≠ 1 ∧
      ((writeKeys (envDraws (primeR - 1) (primeP - 1)) emptyWorld [] primeR primeP).world.files
        (private_key_path [])).map (readKey (uninit (envDraws 0 0) (KEY_SIZE / 2))) =
        some ((primeR : Int) * (primeP : Int), 0) ∧
      ∀ (env : Env) (fuel : Nat) (w : World) (keys_path : List Char8) (r : KeyGen),
        generate_rsa_keys env fuel w keys_path = some r →
        Int.gcd 65537 (((r.p : Int) - 1) * ((r.q : Int) - 1)) ≠ 1 →
        mpz_invert r.key.e (((r.p : Int) - 1) * ((r.q : Int) - 1)) = none ∧
          r.key.d = env.invert_undef ∧
          r.out =
            (if w.writable (public_key_path keys_path) = true then []
              else [Out.errWritePublicKey (public_key_path keys_path)]) ++
            (if w.writable (private_key_path keys_path) = true then []
              else [Out.errWritePrivateKey (private_key_path keys_path)]) ++
            [Out.keysGenerated] := by
  refine ⟨by decide, by decide, run_R_P emptyWorld [], ?_, ?_, ?_, by decide, by decide,
    by decide, ?_⟩
  · rw [writeKeys_out]
    simp [emptyWorld]
  · rw [writeKeys_public_file _ _ _ _ _ rfl (by decide)]
    rfl
  · rw [writeKeys_private_file _ _ _ _ _ rfl]
    rfl
  · intro env fuel w keys_path r h hg
    obtain ⟨_, _, _, _, _, hr⟩ := generate_rsa_keys_some h
    have hke : r.key.e = 65537 := by rw [hr]; rfl
    refine ⟨by rw [hke]; exact mpz_invert_none_of_gcd hg, ?_, ?_⟩
    · rw [hr, writeKeys_key_d, mpz_invert_none_of_gcd hg]
    · rw [hr]
      exact writeKeys_out env w keys_path r.p r.q

/-- C10. The scenario `p = 61`, `q = 53`, `e = 17` over the arithmetic steps of the code:
the key derivation gives `n = 3233`, `phi` is `3120`, `mpz_invert` gives `d = 2753`, the
`mpz_powm` of encryption maps `65` to `2790` and that of decryption maps `2790` back to
`65`. -/
theorem scenario_61_53_17 :
    (writeKeys (envDraws 0 0) emptyWorld [] 61 53).key.n = 3233 ∧
      ((61 : Int) - 1) * (53 - 1) = 3120 ∧ mpz_invert 17 3120 = some 2753 ∧
      mpz_powm 65 17 3233 = some 2790 ∧ mpz_powm 2790 2753 3233 = some 65 := by
  decide

set_option maxRecDepth 100000 in
/-- C11, as stated, fails: `primeP` and `primeQ` are primes of exactly `KEY_SIZE / 2` bits,
the message of 128 bytes `0xFF` encodes to an integer of `KEY_SIZE` bits, so it passes the
check of `encrypt_message`, which writes a ciphertext for it under the key file of these
primes; yet the integer is greater than `n = primeP * primeQ`, and raising its ciphertext
to the private exponent modulo `n` does not give it back. -/
theorem full_size_message_exceeds_modulus :
    primeP.Prime ∧ primeQ.Prime ∧ mpz_sizeinbase primeP = KEY_SIZE / 2 ∧
      mpz_sizeinbase primeQ = KEY_SIZE / 2 ∧
      mpz_sizeinbase (encodeBase256 (List.replicate 128 255)) ≤ KEY_SIZE ∧
      primeP * primeQ < encodeBase256 (List.replicate 128 255) ∧
      (encrypt_message (envDraws 0 0)
          (writeKeys (envDraws (primeP - 1) (primeQ - 1)) emptyWorld [] primeP primeQ).world
          (public_key_path []) (List.replicate 128 255)).map (fun r => r.out) =
        some [Out.encrypted] ∧
      (mpz_invert 65537 (((primeP : Int) - 1) * ((primeQ : Int) - 1))).bind
          (fun d => (mpz_powm (encodeBase256 (List.replicate 128 255)) 65537
            ((primeP : Int) * primeQ)).bind
              (fun c => mpz_powm c d ((primeP : Int) * primeQ))) ≠
        some (encodeBase256 (List.replicate 128 255) : Int) :=
  ⟨primeP_prime, primeQ_prime, by decide, by decide, by decide, by decide, by decide, by decide⟩

/-- C11, amended. What the bit-length check gives: for a modulus `n = p * q` built from
two numbers of exactly `KEY_SIZE / 2` bits, every encoded message that passes the check
`bitLength(encoded) ≤ KEY_SIZE` of `encrypt_message` is below `2 ^ KEY_SIZE`, while `n`
lies between `2 ^ (KEY_SIZE - 2)` and `2 ^ KEY_SIZE`; an accepted message is strictly less
than `n` whenever its bit length is at most `KEY_SIZE - 2`. -/
theorem accepted_message_bound (p q : Nat) (message_str : List Char8)
    (hp : mpz_sizeinbase p = KEY_SIZE / 2) (hq : mpz_sizeinbase q = KEY_SIZE / 2)
    (hacc : mpz_sizeinbase (encodeBase256 message_str) ≤ KEY_SIZE) :
    encodeBase256 message_str < 2 ^ KEY_SIZE ∧ 2 ^ (KEY_SIZE - 2) ≤ p * q ∧
      p * q < 2 ^ KEY_SIZE ∧
      (mpz_sizeinbase (encodeBase256 message_str) ≤ KEY_SIZE - 2 →
        encodeBase256 message_str < p * q) := by
  have hp0 : p ≠ 0 := by
    intro h
    rw [h] at hp
    exact absurd hp (by decide)
  have hq0 : q ≠ 0 := by
    intro h
    rw [h] at hq
    exact absurd hq (by decide)
  have hP := (mpz_sizeinbase_eq_iff (by decide) hp0).mp hp
  have hQ := (mpz_sizeinbase_eq_iff (by decide) hq0).mp hq
  have hlo : 2 ^ (KEY_SIZE - 2) ≤ p * q := by
    have e : 2 ^ (KEY_SIZE - 2) = 2 ^ (KEY_SIZE / 2 - 1) * 2 ^ (KEY_SIZE / 2 - 1) := by
      rw [← pow_add]
      congr 1
    rw [e]
    exact Nat.mul_le_mul hP.1 hQ.1
  have hhi : p * q < 2 ^ KEY_SIZE := by
    have e : 2 ^ KEY_SIZE = 2 ^ (KEY_SIZE / 2) * 2 ^ (KEY_SIZE / 2) := by
      rw [← pow_add]
      congr 1
    rw [e]
    exact Nat.mul_lt_mul'' hP.2 hQ.2
  have hm : ∀ b, mpz_sizeinbase (encodeBase256 message_str) ≤ b →
      encodeBase256 message_str < 2 ^ b := fun b hb =>
    lt_of_lt_of_le (lt_two_pow_of_size rfl) (Nat.pow_le_pow_right (by norm_num) hb)
  exact ⟨hm _ hacc, hlo, hhi, fun h => lt_of_lt_of_le (hm _ h) hlo⟩

set_option maxRecDepth 100000 in
/-- Witness for the amended C11: the primes `primeP` and `primeQ` and the message `A`. -/
theorem accepted_message_bound_witness :
    mpz_sizeinbase primeP = KEY_SIZE / 2 ∧ mpz_sizeinbase primeQ = KEY_SIZE / 2 ∧
      mpz_sizeinbase (encodeBase256 [65]) ≤ KEY_SIZE ∧
      mpz_sizeinbase (encodeBase256 [65]) ≤ KEY_SIZE - 2 ∧
      encodeBase256 [65] < primeP * primeQ :=
  ⟨by decide, by decide, by decide, by decide,
    (accepted_message_bound primeP primeQ [65] (by decide) (by decide) (by decide)).2.2.2
      (by decide)⟩

/-- C12, at the failing input: a call in the order of the header, the message `A` first
and the key path `k` second, makes `encrypt_message` open a file named `A` as the key
file, which does not exist, and write nothing, although the key file `k` is there; with
the arguments the other way round the message `A` is encrypted to `c:2790`. -/
theorem header_order_call_opens_message_as_key_file :
    (encrypt_message (envDraws 0 0) keyWorld [65] [107]).map (fun r => r.out) =
        some [Out.errOpenPublicKey [65]] ∧
      (encrypt_message (envDraws 0 0) keyWorld [65] [107]).bind
        (fun r => r.world.files ciphertext_file) = none ∧
      (encrypt_message (envDraws 0 0) keyWorld [107] [65]).map (fun r => r.out) =
        some [Out.encrypted] ∧
      (encrypt_message (envDraws 0 0) keyWorld [107] [65]).bind
        (fun r => r.world.files ciphertext_file) = some [99, 58, 50, 55, 57, 48] := by
  decide

/-- C13. Key-file round trip: for every key of a run of `generate_rsa_keys`, the modulus
has at most 309 decimal digits, so its line fits the 512-byte line buffer; the public key
file, `n:` and `e:` lines, is read back by the reader of `encrypt_message` and
`decrypt_message`, from any state of the buffer, as the same `n` and `e`; and the private
key file is read back as the same `n` and `d` whenever `d` is the inverse that
`mpz_invert` found, or a left-over value of at most 509 characters.  The files the run
could open hold exactly these contents. -/
theorem key_file_round_trip (env : Env) (fuel : Nat) (w : World) (keys_path : List Char8)
    (r : KeyGen) (buffer : List Char8)
    (h : generate_rsa_keys env fuel w keys_path = some r) :
    (mpz_get_str r.key.n).length ≤ 309 ∧
      readKey buffer (keyFile 101 (mpz_get_str r.key.n) (mpz_get_str r.key.e)) =
        (r.key.n, r.key.e) ∧
      (Int.gcd 65537 (((r.p : Int) - 1) * ((r.q : Int) - 1)) = 1 ∨
          (mpz_get_str env.invert_undef).length ≤ 509 →
        readKey buffer (keyFile 100 (mpz_get_str r.key.n) (mpz_get_str r.key.d)) =
          (r.key.n, r.key.d)) ∧
      (w.writable (public_key_path keys_path) = true →
        public_key_path keys_path ≠ private_key_path keys_path →
        r.world.files (public_key_path keys_path) =
          some (keyFile 101 (mpz_get_str r.key.n) (mpz_get_str r.key.e))) ∧
      (w.writable (private_key_path keys_path) = true →
        r.world.files (private_key_path keys_path) =
          some (keyFile 100 (mpz_get_str r.key.n) (mpz_get_str r.key.d))) := by
  obtain ⟨hp, hq, hne, _, _, hr⟩ := generate_rsa_keys_some h
  have hn := generate_rsa_keys_n_lt h
  have hnlen : (mpz_get_str r.key.n).length ≤ 309 := mpz_get_str_length (by norm_num) hn.1 hn.2
  have hke : r.key.e = 65537 := by rw [hr]; rfl
  have hkn : r.key.n = (r.p : Int) * (r.q : Int) := by rw [hr]; rfl
  have hphi := phi_ge_two hp hq hne
  refine ⟨hnlen, ?_, ?_, ?_, ?_⟩
  · exact readKey_keyFile buffer 101 _ _ (by decide) (by omega) (by rw [hke]; decide)
  · intro hd
    apply readKey_keyFile buffer 100 _ _ (by decide) (by omega)
    by_cases hg : Int.gcd 65537 (((r.p : Int) - 1) * ((r.q : Int) - 1)) = 1
    · obtain ⟨d, hd⟩ := mpz_invert_of_gcd (by omega) hg
      have hkd : r.key.d = d := by rw [hr, writeKeys_key_d, hd]
      have hs := mpz_invert_some hd
      rw [abs_of_nonneg (by omega)] at hs
      have hp1 : (1 : Int) ≤ r.p := by exact_mod_cast hp.one_lt.le
      have hq1 : (1 : Int) ≤ r.q := by exact_mod_cast hq.one_lt.le
      have hphin : ((r.p : Int) - 1) * ((r.q : Int) - 1) ≤ r.key.n := by
        rw [hkn]; nlinarith
      have : (mpz_get_str r.key.d).length ≤ 309 := by
        rw [hkd]
        exact mpz_get_str_length (by norm_num) hs.1 (by omega)
      omega
    · rcases hd with hd | hd
      · exact absurd hd hg
      · have hkd : r.key.d = env.invert_undef := by
          rw [hr, writeKeys_key_d, mpz_invert_none_of_gcd hg]
        rw [hkd]
        exact hd
  · intro hw hpp
    rw [hr]
    exact writeKeys_public_file env w keys_path r.p r.q hw hpp
  · intro hw
    rw [hr]
    exact writeKeys_private_file env w keys_path r.p r.q hw

/-- Witness for C13: the run that draws the 512-bit primes `primeP` and `primeQ`, read
back into a buffer of 512 bytes. -/
theorem key_file_round_trip_witness :
    generate_rsa_keys (envDraws (primeP - 1) (primeQ - 1)) 1 emptyWorld [] =
        some (writeKeys (envDraws (primeP - 1) (primeQ - 1)) emptyWorld [] primeP primeQ) ∧
      readKey (uninit (envDraws 0 0) (KEY_SIZE / 2))
        (keyFile 101
          (mpz_get_str
            (writeKeys (envDraws (primeP - 1) (primeQ - 1)) emptyWorld [] primeP primeQ).key.n)
          (mpz_get_str
            (writeKeys (envDraws (primeP - 1) (primeQ - 1)) emptyWorld [] primeP primeQ).key.e)) =
        ((primeP : Int) * (primeQ : Int), 65537) :=
  ⟨run_P_Q emptyWorld [],
    (key_file_round_trip (envDraws (primeP - 1) (primeQ - 1)) 1 emptyWorld []
      (writeKeys (envDraws (primeP - 1) (primeQ - 1)) emptyWorld [] primeP primeQ)
      (uninit (envDraws 0 0) (KEY_SIZE / 2)) (run_P_Q emptyWorld [])).2.1⟩

/-- C14. Missing ciphertext file: when the file named by `ciphertext_file_path` cannot be
opened, `decrypt_message` returns with the file system as it was and the ciphertext-file
error as its only output, whatever the private key path names: no decrypted line is
printed. -/
theorem decrypt_message_missing_ciphertext (env : Env) (w : World)
    (private_key_path ciphertext_file_path : List Char8)
    (h : w.files (strOf ciphertext_file_path) = none) :
    decrypt_message env w private_key_path ciphertext_file_path =
        some ⟨w, [Out.errOpenCiphertext (strOf ciphertext_file_path)]⟩ ∧
      ∀ r, decrypt_message env w private_key_path ciphertext_file_path = some r →
        ∀ m, Out.decrypted m ∉ r.out := by
  have heq : decrypt_message env w private_key_path ciphertext_file_path =
      some ⟨w, [Out.errOpenCiphertext (strOf ciphertext_file_path)]⟩ := by
    unfold decrypt_message
    simp only
    rw [h]
  refine ⟨heq, ?_⟩
  intro r hr m
  rw [heq] at hr
  injection hr with hr
  rw [← hr]
  simp

/-- Witness for C14: the private key file `l` is there, the ciphertext file `c` is not. -/
theorem decrypt_message_missing_ciphertext_witness :
    keyWorld.files (strOf [99]) = none ∧
      decrypt_message (envDraws 0 0) keyWorld [108] [99] =
        some ⟨keyWorld, [Out.errOpenCiphertext (strOf [99])]⟩ :=
  ⟨by decide, (decrypt_message_missing_ciphertext (envDraws 0 0) keyWorld [108] [99]
    (by decide)).1⟩

/-- C15, at the failing input: for the integer `0` the digit loop leaves `i = 0`, so
`end = i - 1` wraps to `2 ^ 64 - 1`, the reversal loop is entered with `start = 0 < end`
and its first round reads `string[end]`, outside of the array: `decodeBase256` has no
result, for an array of 4 bytes, for one of 1024 bytes and for every array below
`2 ^ 64` bytes. -/
theorem decodeBase256_zero_leaves_array :
    digitLoop 0 0 [1, 2, 3, 4] 0 = some ([1, 2, 3, 4], 0) ∧
      (0 + SIZE_MOD - 1) % SIZE_MOD = 18446744073709551615 ∧
      reverseLoop 18446744073709551615 [0, 2, 3, 4] 0 18446744073709551615 = none ∧
      decodeBase256 [1, 2, 3, 4] 0 = none ∧
      decodeBase256 (uninit (envDraws 0 0) 1024) 0 = none ∧
      ∀ string : List Char8, string.length < SIZE_MOD → decodeBase256 string 0 = none :=
  ⟨by decide, by decide, by decide, by decide,
    decodeBase256_zero _ (by simp [uninit, SIZE_MOD]), decodeBase256_zero⟩

/-- C16. Digit extraction of `decodeBase256`: for every integer `v > 0` and a destination
array with room, the bytes written before the terminator are the base-256 digits of `v`,
most significant first; there are `ceil(bitLength(v) / 8)` of them, the first is not
zero, and the sum of `byte_i * 256 ^ (k - 1 - i)` over them is `v`. -/
theorem decodeBase256_digits (v : Nat) (string : List Char8) (hv : 0 < v)
    (hcap : (mpz_sizeinbase v + 7) / 8 < string.length) (hmax : string.length ≤ SIZE_MOD) :
    ∃ bytes : List Char8,
      decodeBase256 string (v : Int) = some (bytes ++ 0 :: string.drop (bytes.length + 1)) ∧
      bytes.map Fin.val = (Nat.digits 256 v).reverse ∧
      bytes.length = (mpz_sizeinbase v + 7) / 8 ∧ bytes.head? ≠ some 0 ∧ bytes.head? ≠ none ∧
      ∑ i in Finset.range bytes.length,
        (bytes.getD i 0).val * 256 ^ (bytes.length - 1 - i) = v := by
  have hlen := digits_256_length hv
  have hdig : ∀ d ∈ (Nat.digits 256 v).reverse, d < 256 := by
    intro d hd
    rw [List.mem_reverse] at hd
    exact Nat.digits_lt_base (by norm_num) hd
  have hval := map_ofNat_val (Nat.digits 256 v).reverse hdig
  have hne : Nat.digits 256 v ≠ [] :=
    fun h => (Nat.pos_iff_ne_zero.mp hv) (Nat.digits_eq_nil_iff_eq_zero.mp h)
  refine ⟨(Nat.digits 256 v).reverse.map Fin.ofNat, ?_, hval, ?_, ?_, ?_, ?_⟩
  · have := decodeBase256_pos v string hv (by rw [hlen]; exact hcap) hmax
    rw [this]
    simp
  · simp [hlen]
  · intro h
    have h2 : (((Nat.digits 256 v).reverse.map (Fin.ofNat : Nat → Char8)).map Fin.val).head? =
        some 0 := by
      rw [List.head?_map, h]; rfl
    rw [hval, List.head?_reverse, List.getLast?_eq_getLast _ hne] at h2
    injection h2 with h2
    exact Nat.getLast_digit_ne_zero 256 (Nat.pos_iff_ne_zero.mp hv) h2
  · intro h
    rw [List.head?_eq_none_iff, List.map_eq_nil_iff, List.reverse_eq_nil_iff] at h
    exact hne h
  · rw [sum_eq_ofDigits, hval, List.reverse_reverse, Nat.ofDigits_digits]

/-- Witness for C16: `16706` decodes to `AB`. -/
theorem decodeBase256_digits_witness :
    0 < 16706 ∧ (mpz_sizeinbase 16706 + 7) / 8 < ([1, 2, 3, 4] : List Char8).length ∧
      ([1, 2, 3, 4] : List Char8).length ≤ SIZE_MOD ∧
      (∃ bytes : List Char8,
        decodeBase256 [1, 2, 3, 4] ((16706 : Nat) : Int) =
          some (bytes ++ 0 :: ([1, 2, 3, 4] : List Char8).drop (bytes.length + 1)) ∧
        bytes.map Fin.val = (Nat.digits 256 16706).reverse ∧
        bytes.length = (mpz_sizeinbase 16706 + 7) / 8 ∧ bytes.head? ≠ some 0 ∧
        bytes.head? ≠ none ∧
        ∑ i in Finset.range bytes.length,
          (bytes.getD i 0).val * 256 ^ (bytes.length - 1 - i) = 16706) ∧
      decodeBase256 [1, 2, 3, 4] 16706 = some [65, 66, 0, 4] :=
  ⟨by decide, by decide, by decide,
    decodeBase256_digits 16706 [1, 2, 3, 4] (by decide) (by decide) (by decide), by decide⟩

/-- C17, as stated, fails: with `bit_size = 8` the draw `131`, a prime of exactly eight
bits, makes `generate_random_prime` return `137`; and with `bit_size = KEY_SIZE / 2` the
draw `primeP`, a prime of exactly 512 bits, makes it return a greater prime. -/
theorem prime_draw_is_passed_over :
    Nat.Prime 131 ∧ mpz_sizeinbase 131 = 8 ∧
      generate_random_prime (envDraws 131 131) 0 8 1 = some 137 ∧
      primeP.Prime ∧ mpz_sizeinbase primeP = KEY_SIZE / 2 ∧
      ∃ r, generate_random_prime (envDraws primeP 0) 0 (KEY_SIZE / 2) 1 = some r ∧
        primeP < r := by
  refine ⟨by norm_num, by decide, ?_, primeP_prime, primeP_size, mpz_nextprime primeP, ?_,
    (mpz_nextprime_spec primeP).2.1⟩
  · rw [generate_random_prime_first_draw (r := 131) (by decide) (by decide), mpz_nextprime_131]
  · exact generate_random_prime_first_draw
      (envDraws_first _ _ (le_of_eq primeP_size)) (le_of_eq primeP_size.symm)

/-- C17, amended. Prime search step of `generate_random_prime`: in each iteration the
candidate is the least prime strictly greater than the random draw `r` of that
iteration.  When the candidates of the iterations before `j` are shorter than `bit_size`
bits and the candidate of iteration `j` has exactly `bit_size` bits, the generator
returns the candidate of iteration `j`; every value the generator returns is the
candidate of one of its iterations, after shorter candidates, so it is greater than the
draw of that iteration and never the draw itself, prime or not. -/
theorem generate_random_prime_after_draw :
    (∀ (env : Env) (k bit_size fuel j : Nat), j < fuel →
      (∀ i, i < j →
        mpz_sizeinbase (mpz_nextprime (env.urandom (env.time k) i % 2 ^ bit_size)) <
          bit_size) →
      mpz_sizeinbase (mpz_nextprime (env.urandom (env.time k) j % 2 ^ bit_size)) = bit_size →
      generate_random_prime env k bit_size fuel =
        some (mpz_nextprime (env.urandom (env.time k) j % 2 ^ bit_size))) ∧
      (∀ (env : Env) (k bit_size fuel prime : Nat),
        generate_random_prime env k bit_size fuel = some prime →
        ∃ j r, j < fuel ∧ r = env.urandom (env.time k) j % 2 ^ bit_size ∧
          prime = mpz_nextprime r ∧ r < prime ∧
          ∀ i, i < j →
            mpz_sizeinbase (mpz_nextprime (env.urandom (env.time k) i % 2 ^ bit_size)) <
              bit_size) ∧
      (∀ r : Nat, (mpz_nextprime r).Prime ∧ r < mpz_nextprime r ∧
        ∀ m, r < m → m < mpz_nextprime r → ¬ m.Prime) := by
  refine ⟨?_, ?_, mpz_nextprime_spec⟩
  · intro env k bit_size fuel j hj hshort hsize
    have h := primeLoop_iteration (env.urandom (env.time k)) bit_size j fuel 0 hj
      (fun t ht => by rw [Nat.zero_add]; exact hshort t ht)
      (by rw [Nat.zero_add]; exact le_of_eq hsize.symm)
    rw [Nat.zero_add] at h
    exact h
  · intro env k bit_size fuel prime h
    obtain ⟨j, hj, hr, hshort⟩ :=
      primeLoop_some_iteration (env.urandom (env.time k)) bit_size fuel 0 prime h
    rw [Nat.zero_add] at hr
    refine ⟨j, _, hj, rfl, hr, ?_, ?_⟩
    · rw [hr]; exact (mpz_nextprime_spec _).2.1
    · intro i hi
      have := hshort i hi
      rw [Nat.zero_add] at this
      exact this

/-- Witness for the amended C17: with `bit_size = 8` the first draw, `3`, gives the
candidate `5`, which is too short; the second draw, `131`, is a prime of exactly eight
bits, and the generator returns the next prime after it, `137`. -/
theorem generate_random_prime_after_draw_witness :
    mpz_sizeinbase (mpz_nextprime (envShortThenPrime.urandom (envShortThenPrime.time 0) 0 %
        2 ^ 8)) < 8 ∧
      envShortThenPrime.urandom (envShortThenPrime.time 0) 1 % 2 ^ 8 = 131 ∧
      Nat.Prime 131 ∧ mpz_sizeinbase 131 = 8 ∧ mpz_sizeinbase 137 = 8 ∧
      generate_random_prime envShortThenPrime 0 8 2 = some 137 := by
  have h0 : mpz_sizeinbase (mpz_nextprime
      (envShortThenPrime.urandom (envShortThenPrime.time 0) 0 % 2 ^ 8)) < 8 := by
    rw [show envShortThenPrime.urandom (envShortThenPrime.time 0) 0 % 2 ^ 8 = 3 from rfl,
      mpz_nextprime_3]
    decide
  have h1 : envShortThenPrime.urandom (envShortThenPrime.time 0) 1 % 2 ^ 8 = 131 := rfl
  have h := generate_random_prime_after_draw.1 envShortThenPrime 0 8 2 1 (by decide)
    (fun i hi => by
      have hi0 : i = 0 := by omega
      rw [hi0]
      exact h0)
    (by rw [h1, mpz_nextprime_131]; decide)
  rw [h1, mpz_nextprime_131] at h
  exact ⟨h0, h1, by norm_num, by decide, by decide, h⟩

/-- C18. Codec round trip on C strings: for every non-empty string `s` without a zero
byte, bytes from 128 on included, `decodeBase256` of `encodeBase256(s)` leaves the bytes
of `s` and then the terminator at the start of the destination array, when that has room
for them. -/
theorem codec_bytes_then_terminator (s string : List Char8) (hne : s ≠ [])
    (hnz : ∀ c ∈ s, c ≠ 0) (hcap : s.length < string.length)
    (hmax : string.length ≤ SIZE_MOD) :
    decodeBase256 string (encodeBase256 s) = some (s ++ 0 :: string.drop (s.length + 1)) := by
  have hs : strOf s = s := strOf_eq_self hnz
  have := decodeBase256_encodeBase256 s string (by rw [hs]; exact hne) (by rw [hs]; exact hcap)
    hmax
  rw [hs] at this
  exact this

/-- Witness for C18: the bytes `200 65 255` decoded into an array of five bytes. -/
theorem codec_bytes_then_terminator_witness :
    ([200, 65, 255] : List Char8) ≠ [] ∧ (∀ c ∈ ([200, 65, 255] : List Char8), c ≠ 0) ∧
      ([200, 65, 255] : List Char8).length < ([1, 2, 3, 4, 5] : List Char8).length ∧
      ([1, 2, 3, 4, 5] : List Char8).length ≤ SIZE_MOD ∧
      decodeBase256 [1, 2, 3, 4, 5] (encodeBase256 [200, 65, 255]) =
        some [200, 65, 255, 0, 5] :=
  ⟨by decide, by simp, by decide, by decide,
    codec_bytes_then_terminator [200, 65, 255] [1, 2, 3, 4, 5] (by decide) (by simp)
      (by decide) (by decide)⟩

set_option maxRecDepth 100000 in
/-- C19 at the decrypted integer `0`: with the key `n = 3233`, `e = 17`, `d = 2753`,
encrypting the empty message writes the ciphertext file `c:0`; `decrypt_message` parses
`n = 3233 > 0` and `d = 2753`, and the decrypted integer is `0`.  The digit loop of
`decodeBase256` then writes nothing and the terminator goes to index `0`, but `end = i - 1`
wraps to `2 ^ 64 - 1` and the reversal loop accesses `message_str` at that index, far
outside its 1024 bytes, so the call has no result.  For the message `A` the same two
calls give `A` back. -/
theorem decrypt_message_zero_leaves_buffer :
    (encrypt_message (envDraws 0 0) keyWorld [107] []).bind
        (fun r => r.world.files ciphertext_file) = some [99, 58, 48] ∧
      (keyWorld.files [108]).map (readKey (uninit (envDraws 0 0) (KEY_SIZE / 2))) =
        some (3233, 2753) ∧
      mpz_powm 0 2753 3233 = some 0 ∧
      digitLoop 0 0 (List.replicate 1024 0) 0 = some (List.replicate 1024 0, 0) ∧
      (0 + SIZE_MOD - 1) % SIZE_MOD = 18446744073709551615 ∧
      (List.replicate 1024 (0 : Char8)).get? 18446744073709551615 = none ∧
      decodeBase256 (List.replicate 1024 0) 0 = none ∧
      ((encrypt_message (envDraws 0 0) keyWorld [107] []).bind
        (fun r => decrypt_message (envDraws 0 0) r.world [108] ciphertext_file)).map
          (fun r => r.out) = none ∧
      ((encrypt_message (envDraws 0 0) keyWorld [107] [65]).bind
        (fun r => decrypt_message (envDraws 0 0) r.world [108] ciphertext_file)).map
          (fun r => r.out) = some [Out.decrypted [65]] := by
  decide

/-- C20. `generate_random_prime` is a function of the clock value it seeds from and of
`bit_size`: two calls that read the same clock value return the same result.  So in
`generate_rsa_keys`, when the calls for `p` and `q` read the same clock value the first
`q` is `p`; while the calls read that clock value the redraw loop goes on, so a run in
which all of them do never ends; and the `q` of a run that ends was drawn by a call that
read another clock value. -/
theorem generate_random_prime_clock :
    (∀ (env : Env) (k1 k2 bit_size fuel : Nat), env.time k1 = env.time k2 →
      generate_random_prime env k1 bit_size fuel =
        generate_random_prime env k2 bit_size fuel) ∧
      (∀ (env : Env) (fuel : Nat) (w : World) (keys_path : List Char8),
        (∀ j, j ≤ fuel + 1 → env.time j = env.time 0) →
        generate_rsa_keys env fuel w keys_path = none) ∧
      (∀ (env : Env) (fuel : Nat) (w : World) (keys_path : List Char8) (r : KeyGen),
        generate_rsa_keys env fuel w keys_path = some r → env.time 1 = env.time 0 →
        ∃ j, 2 ≤ j ∧ env.time j ≠ env.time 0 ∧
          generate_random_prime env j (KEY_SIZE / 2) fuel = some r.q) := by
  refine ⟨generate_random_prime_congr, ?_, ?_⟩
  · intro env fuel w keys_path htime
    unfold generate_rsa_keys
    rw [generate_random_prime_congr env 1 0 _ _ (htime 1 (by omega))]
    cases hp : generate_random_prime env 0 (KEY_SIZE / 2) fuel with
    | none => rfl
    | some p =>
      simp only
      rw [redrawLoop_same_clock env p fuel fuel 2
        (fun j _ h2 => htime j (by omega)) (Or.inl hp)]
  · intro env fuel w keys_path r h h01
    have hr := generate_rsa_keys_some h
    unfold generate_rsa_keys at h
    rw [generate_random_prime_congr env 1 0 _ _ h01] at h
    cases hp : generate_random_prime env 0 (KEY_SIZE / 2) fuel with
    | none => rw [hp] at h; exact absurd h (by simp)
    | some p =>
      rw [hp] at h
      simp only at h
      cases hq : redrawLoop env p fuel fuel 2 p with
      | none => rw [hq] at h; exact absurd h (by simp)
      | some q =>
        rw [hq] at h
        simp only at h
        injection h with h
        have hrq : r.q = q := by rw [← h]; rfl
        rcases redrawLoop_exit env p fuel fuel 2 p q hq hp with h2 | ⟨j, hj1, hj2, hj3⟩
        · exact absurd h2.symm (redrawLoop_some env p fuel fuel 2 p q hq).1
        · exact ⟨j, hj1, hj2, by rw [hrq]; exact hj3⟩

/-- Witness for C20: in the run of `envSameSecond` the calls for `p` and `q` read the same
clock value, and the `q` of the key, `primeQ`, comes from a later call that read another
one. -/
theorem generate_random_prime_clock_witness :
    envSameSecond.time 1 = envSameSecond.time 0 ∧
      generate_random_prime envSameSecond 1 (KEY_SIZE / 2) 2 =
        generate_random_prime envSameSecond 0 (KEY_SIZE / 2) 2 ∧
      generate_rsa_keys envSameSecond 2 emptyWorld [] =
        some (writeKeys envSameSecond emptyWorld [] primeP primeQ) ∧
      ∃ j, 2 ≤ j ∧ envSameSecond.time j ≠ envSameSecond.time 0 ∧
        generate_random_prime envSameSecond j (KEY_SIZE / 2) 2 = some primeQ :=
  ⟨rfl, generate_random_prime_clock.1 envSameSecond 1 0 (KEY_SIZE / 2) 2 rfl,
    run_same_second 0 emptyWorld [],
    generate_random_prime_clock.2.2 envSameSecond 2 emptyWorld []
      (writeKeys envSameSecond emptyWorld [] primeP primeQ) (run_same_second 0 emptyWorld [])
      rfl⟩

end TextbookRSA
